import Mathlib

set_option linter.unusedSectionVars false
set_option linter.unusedVariables false
set_option maxHeartbeats 1000000

/-!
A shallow embedding of `rust-clockpro-cache` (`src/lib.rs`): a CLOCK-Pro
cache with three hands over a circular token ring, an adaptive cold
target, and a key index.

Modelling conventions:
* The Rust `bitflags` value `NodeType : u8` is embedded as a structure of
  five booleans, one per bit (`EMPTY = 0b00001`, `HOT = 0b00010`,
  `COLD = 0b00100`, `TEST = 0b01000`, `REFERENCE = 0b10000`); the bitflags
  operations `insert` (bitwise or), `remove` (bitwise and-not) and
  `intersects` (nonempty bitwise and) become field-wise boolean operations.
* `TokenRing` is embedded as the list of its tokens in head-to-tail order.
  `next_for_token` / `prev_for_token` wrap around exactly as the Rust code
  does (successor of the tail is the head and vice versa);
  `insert_after(to)` places the new token between `prev(to)` and `to`,
  which in the list representation appends at the tail when `to` is the
  head and inserts immediately before `to` otherwise — the two branches of
  the Rust code.
* The Rust `Slab` allocator hands out unused integer tokens; tokens are
  opaque and never reused while live, so allocation is embedded by a
  monotone counter `next_tok` (observationally equivalent: behaviour
  depends on tokens only through identity and ring order).
* The slab `Vec<Node>` is a total function `Token → Node`; the Rust
  vector is uninitialised and a slot is never read before it is written,
  so unwritten slots hold an inert placeholder (state `EMPTY`, no value).
* The `HashMap<K, Token>` is an association list with distinct keys.
* The mutually recursive hand routines (`run_hand_cold`, `run_hand_hot`,
  `run_hand_test` and the three `while` loops `evict`,
  `while count_test > test_capacity`, `while count_hot > capacity -
  cold_capacity`) are executed with a fuel parameter; `none` means the
  fuel ran out, `some` is the state the Rust code reaches.
-/

/-- One bit of the Rust `NodeType` bitflags (`u8`), one field per bit. -/
structure NodeType where
  empty : Bool
  hot : Bool
  cold : Bool
  test : Bool
  reference : Bool
deriving DecidableEq, Repr

/-- `NODETYPE_EMPTY = 0b00001`. -/
def NODETYPE_EMPTY : NodeType := ⟨true, false, false, false, false⟩

/-- `NODETYPE_HOT = 0b00010`. -/
def NODETYPE_HOT : NodeType := ⟨false, true, false, false, false⟩

/-- `NODETYPE_COLD = 0b00100`. -/
def NODETYPE_COLD : NodeType := ⟨false, false, true, false, false⟩

/-- `NODETYPE_TEST = 0b01000`. -/
def NODETYPE_TEST : NodeType := ⟨false, false, false, true, false⟩

/-- `NODETYPE_REFERENCE = 0b10000`. -/
def NODETYPE_REFERENCE : NodeType := ⟨false, false, false, false, true⟩

/-- `NODETYPE_MASK = EMPTY | HOT | COLD | TEST`. -/
def NODETYPE_MASK : NodeType := ⟨true, true, true, true, false⟩

namespace NodeType

/-- Bitflags `a.insert(b)`: bitwise or. -/
def or (a b : NodeType) : NodeType :=
  ⟨a.empty || b.empty, a.hot || b.hot, a.cold || b.cold,
   a.test || b.test, a.reference || b.reference⟩

/-- Bitflags `a.remove(b)`: bitwise and-not. -/
def andNot (a b : NodeType) : NodeType :=
  ⟨a.empty && !b.empty, a.hot && !b.hot, a.cold && !b.cold,
   a.test && !b.test, a.reference && !b.reference⟩

/-- Bitflags `a.intersects(b)`: some bit is set in both. -/
def intersects (a b : NodeType) : Bool :=
  (a.empty && b.empty) || (a.hot && b.hot) || (a.cold && b.cold) ||
  (a.test && b.test) || (a.reference && b.reference)

end NodeType

/-- Ring tokens (`token_ring::Token = usize`). -/
abbrev Token := Nat

/-- `struct Node<K, V>`: slot-table entry (the `PhantomData` field is
erased). -/
structure Node (K V : Type) where
  key : K
  value : Option V
  node_type : NodeType

/-- `pub struct ClockProCache<K, V>`: the cache state. The ring is the
token list in head-to-tail order; `next_tok` is the allocation counter
standing in for the slab allocator. -/
structure ClockProCache (K V : Type) where
  capacity : Nat
  test_capacity : Nat
  cold_capacity : Nat
  map : List (K × Token)
  ring : List Token
  slab : Token → Node K V
  next_tok : Token
  hand_hot : Token
  hand_cold : Token
  hand_test : Token
  count_hot : Nat
  count_cold : Nat
  count_test : Nat

namespace ClockProCache

section Ops

variable {K V : Type} [DecidableEq K]

/-- `HashMap::get`: first entry with the given key. -/
def mapGet (m : List (K × Token)) (k : K) : Option Token :=
  match m with
  | [] => none
  | p :: rest => if p.1 = k then some p.2 else mapGet rest k

/-- `HashMap::remove`: drop the entry with the given key. -/
def mapRemove (m : List (K × Token)) (k : K) : List (K × Token) :=
  m.filter (fun p => decide (p.1 ≠ k))

/-- `HashMap::insert`: bind `k` to `t`, replacing any previous binding. -/
def mapInsert (m : List (K × Token)) (k : K) (t : Token) : List (K × Token) :=
  (k, t) :: mapRemove m k

/-- Successor of `t` in head-to-tail list order, when it has one. -/
def listNextAfter : List Token → Token → Option Token
  | [], _ => none
  | [_], _ => none
  | a :: b :: rest, t => if a = t then some b else listNextAfter (b :: rest) t

/-- `TokenRing::next_for_token`: list successor, wrapping from the tail
to the head.  (The Rust code asserts the ring is nonempty when wrapping;
on junk input the model returns `t` itself.) -/
def ringNext (r : List Token) (t : Token) : Token :=
  match listNextAfter r t with
  | some u => u
  | none => r.headD t

/-- `TokenRing::prev_for_token`: list predecessor, wrapping from the head
to the tail. -/
def ringPrev (r : List Token) (t : Token) : Token :=
  match listNextAfter r.reverse t with
  | some u => u
  | none => r.reverse.headD t

/-- `TokenRing::remove`. -/
def ringRemove (r : List Token) (t : Token) : List Token :=
  r.filter (fun x => decide (x ≠ t))

/-- Insert `tok` immediately before the first occurrence of `to`. -/
def insertBeforeTok : List Token → Token → Token → List Token
  | [], _, tok => [tok]
  | a :: rest, to0, tok =>
    if a = to0 then tok :: a :: rest else a :: insertBeforeTok rest to0 tok

/-- `TokenRing::insert_after(to)`: the new token goes between `prev(to)`
and `to`.  When the ring is empty it becomes the sole element; when `to`
is the head the Rust code appends the new token at the tail (circularly
just before the head); otherwise it splices the token in before `to`. -/
def ringInsertAfter (r : List Token) (to0 tok : Token) : List Token :=
  match r with
  | [] => [tok]
  | a :: _ => if to0 = a then r ++ [tok] else insertBeforeTok r to0 tok

/-- Write slot `t` of the slab. -/
def setSlab (s : ClockProCache K V) (t : Token) (n : Node K V) : ClockProCache K V :=
  { s with slab := fun u => if u = t then n else s.slab u }

/-- `ClockProCache::meta_del`: scrub the slot to `EMPTY`, drop the value,
remove the key from the index, move any hand sitting on the token to its
ring predecessor, and remove the token from the ring. -/
def meta_del (s : ClockProCache K V) (token : Token) : ClockProCache K V :=
  let n := s.slab token
  let n' : Node K V :=
    { n with node_type := (n.node_type.andNot NODETYPE_MASK).or NODETYPE_EMPTY,
             value := none }
  let s1 := setSlab s token n'
  let s2 := { s1 with map := mapRemove s1.map n.key }
  let s3 := { s2 with
    hand_hot := if token = s2.hand_hot then ringPrev s2.ring s2.hand_hot else s2.hand_hot,
    hand_cold := if token = s2.hand_cold then ringPrev s2.ring s2.hand_cold else s2.hand_cold,
    hand_test := if token = s2.hand_test then ringPrev s2.ring s2.hand_test else s2.hand_test }
  { s3 with ring := ringRemove s3.ring token }

/-- The COLD-with-REFERENCE branch of `run_hand_cold`: promote the slot
under `hand_cold` to HOT (`mentry.node_type = NODETYPE_HOT`, clearing
REFERENCE), `count_cold -= 1`, `count_hot += 1`. -/
def promote_cold (s : ClockProCache K V) : ClockProCache K V :=
  { setSlab s s.hand_cold
      { key := (s.slab s.hand_cold).key, value := (s.slab s.hand_cold).value,
        node_type := NODETYPE_HOT } with
    count_cold := s.count_cold - 1, count_hot := s.count_hot + 1 }

/-- The COLD-without-REFERENCE branch of `run_hand_cold`: demote the slot
under `hand_cold` to TEST (clear the state mask, set TEST, drop the
value), `count_cold -= 1`, `count_test += 1`. -/
def demote_cold (s : ClockProCache K V) : ClockProCache K V :=
  { setSlab s s.hand_cold
      { key := (s.slab s.hand_cold).key, value := none,
        node_type := ((s.slab s.hand_cold).node_type.andNot NODETYPE_MASK).or
          NODETYPE_TEST } with
    count_cold := s.count_cold - 1, count_test := s.count_test + 1 }

/-- The body of `ClockProCache::run_hand_hot` after the hand-overlap
check: process the slot under `hand_hot` (clear REFERENCE, or demote a
HOT entry without REFERENCE to COLD). -/
def hand_hot_step (s0 : ClockProCache K V) : ClockProCache K V :=
  let n := s0.slab s0.hand_hot
  if n.node_type.intersects NODETYPE_HOT then
    if n.node_type.intersects NODETYPE_REFERENCE then
      setSlab s0 s0.hand_hot
        { key := n.key, value := n.value,
          node_type := n.node_type.andNot NODETYPE_REFERENCE }
    else
      { setSlab s0 s0.hand_hot
          { key := n.key, value := n.value,
            node_type := (n.node_type.andNot NODETYPE_MASK).or NODETYPE_COLD } with
        count_hot := s0.count_hot - 1, count_cold := s0.count_cold + 1 }
  else s0

/-- The body of `ClockProCache::run_hand_test` after the hand-overlap
check: if the slot under `hand_test` is TEST, `meta_del` it, pull
`hand_test` back to the remembered predecessor, `count_test -= 1`, and
decrement `cold_capacity` if it is above 1. -/
def hand_test_step (s0 : ClockProCache K V) : ClockProCache K V :=
  if (s0.slab s0.hand_test).node_type.intersects NODETYPE_TEST then
    { meta_del s0 s0.hand_test with
      hand_test := ringPrev s0.ring s0.hand_test,
      count_test := (meta_del s0 s0.hand_test).count_test - 1,
      cold_capacity := if (meta_del s0 s0.hand_test).cold_capacity > 1
                       then (meta_del s0 s0.hand_test).cold_capacity - 1
                       else (meta_del s0 s0.hand_test).cold_capacity }
  else s0

mutual

/-- `ClockProCache::run_hand_cold`, with fuel: process the slot under
`hand_cold` (promotion, or demotion followed by the test trim), advance
`hand_cold`, then rebalance the hot partition. -/
def run_hand_cold : Nat → ClockProCache K V → Option (ClockProCache K V)
  | 0, _ => none
  | fuel+1, s =>
    if (s.slab s.hand_cold).node_type.intersects NODETYPE_COLD then
      if (s.slab s.hand_cold).node_type.intersects NODETYPE_REFERENCE then
        rebalance_hot fuel { promote_cold s with
          hand_cold := ringNext (promote_cold s).ring (promote_cold s).hand_cold }
      else
        (trim_test fuel (demote_cold s)).bind fun s2 =>
          rebalance_hot fuel { s2 with hand_cold := ringNext s2.ring s2.hand_cold }
    else
      rebalance_hot fuel { s with hand_cold := ringNext s.ring s.hand_cold }

/-- The `while self.count_test > self.test_capacity { self.run_hand_test() }`
loop inside `run_hand_cold`, with fuel. -/
def trim_test : Nat → ClockProCache K V → Option (ClockProCache K V)
  | 0, _ => none
  | fuel+1, s =>
    if s.count_test > s.test_capacity then
      (run_hand_test fuel s).bind fun s1 => trim_test fuel s1
    else some s

/-- The `while self.count_hot > self.capacity - self.cold_capacity
{ self.run_hand_hot() }` loop at the end of `run_hand_cold`, with fuel. -/
def rebalance_hot : Nat → ClockProCache K V → Option (ClockProCache K V)
  | 0, _ => none
  | fuel+1, s =>
    if s.count_hot > s.capacity - s.cold_capacity then
      (run_hand_hot fuel s).bind fun s1 => rebalance_hot fuel s1
    else some s

/-- `ClockProCache::run_hand_hot`, with fuel: defer to `run_hand_test`
when the hands overlap, process the slot under `hand_hot`, advance
`hand_hot`. -/
def run_hand_hot : Nat → ClockProCache K V → Option (ClockProCache K V)
  | 0, _ => none
  | fuel+1, s =>
    (if s.hand_hot = s.hand_test then run_hand_test fuel s else some s).bind fun s0 =>
      some { hand_hot_step s0 with
        hand_hot := ringNext (hand_hot_step s0).ring (hand_hot_step s0).hand_hot }

/-- `ClockProCache::run_hand_test`, with fuel: defer to `run_hand_cold`
when the hands overlap, reclaim a TEST slot under `hand_test`, advance
`hand_test`. -/
def run_hand_test : Nat → ClockProCache K V → Option (ClockProCache K V)
  | 0, _ => none
  | fuel+1, s =>
    (if s.hand_test = s.hand_cold then run_hand_cold fuel s else some s).bind fun s0 =>
      some { hand_test_step s0 with
        hand_test := ringNext (hand_test_step s0).ring (hand_test_step s0).hand_test }

/-- `ClockProCache::evict`: `while count_hot + count_cold >= capacity
{ run_hand_cold() }`, with fuel. -/
def evict : Nat → ClockProCache K V → Option (ClockProCache K V)
  | 0, _ => none
  | fuel+1, s =>
    if s.count_hot + s.count_cold ≥ s.capacity then
      (run_hand_cold fuel s).bind fun s1 => evict fuel s1
    else some s

end

/-- The part of `ClockProCache::meta_add` after the call to `evict`:
splice a fresh token in before `hand_hot`, fill its slot, index the key,
and pull `hand_cold` back if it sat on `hand_hot`. -/
def meta_add_pure (s0 : ClockProCache K V) (key : K) (node : Node K V) :
    ClockProCache K V :=
  let token := s0.next_tok
  let s1 := { s0 with ring := ringInsertAfter s0.ring s0.hand_hot token,
                      next_tok := token + 1 }
  let s2 := setSlab s1 token node
  let s3 := { s2 with map := mapInsert s2.map key token }
  -- the hands are untouched by the three updates above, so the Rust
  -- comparison `self.hand_cold == self.hand_hot` reads the original hands
  if s0.hand_cold = s0.hand_hot
  then { s3 with hand_cold := ringPrev s3.ring s3.hand_cold }
  else s3

/-- `ClockProCache::meta_add`: evict until there is room, then splice the
new entry in. -/
def meta_add (fuel : Nat) (s : ClockProCache K V) (key : K) (node : Node K V) :
    Option (ClockProCache K V) :=
  (evict fuel s).bind fun s0 => some (meta_add_pure s0 key node)

/-- The present-but-non-resident (TEST) path of `ClockProCache::insert`:
adapt `cold_capacity`, drop the TEST token, and admit a fresh HOT entry. -/
def insert_test_path (fuel : Nat) (s : ClockProCache K V) (key : K) (value : V)
    (token : Token) : Option (Bool × ClockProCache K V) :=
  let sa := if s.cold_capacity < s.capacity
            then { s with cold_capacity := s.cold_capacity + 1 } else s
  let sb := { sa with count_test := sa.count_test - 1 }
  let sc := meta_del sb token
  (meta_add fuel sc key
      { key := key, value := some value, node_type := NODETYPE_HOT }).bind fun s1 =>
    some (false, { s1 with count_hot := s1.count_hot + 1 })

/-- `ClockProCache::insert`.  Returns `some (newly_admitted, state')`, or
`none` when the fuel for the eviction loops ran out. -/
def insert (fuel : Nat) (s : ClockProCache K V) (key : K) (value : V) :
    Option (Bool × ClockProCache K V) :=
  match mapGet s.map key with
  | none =>
    (meta_add fuel s key
        { key := key, value := some value, node_type := NODETYPE_COLD }).bind fun s1 =>
      some (true, { s1 with count_cold := s1.count_cold + 1 })
  | some token =>
    if (s.slab token).value.isSome then
      some (false, setSlab s token
        { key := (s.slab token).key, value := some value,
          node_type := (s.slab token).node_type.or NODETYPE_REFERENCE })
    else
      insert_test_path fuel s key value token

/-- `ClockProCache::get`: the returned value together with the state
after the lookup (the REFERENCE bit is set on a resident hit). -/
def get (s : ClockProCache K V) (key : K) : Option V × ClockProCache K V :=
  match mapGet s.map key with
  | none => (none, s)
  | some token =>
    let node := s.slab token
    match node.value with
    | none => (none, s)
    | some v =>
      (some v, setSlab s token
        { node with node_type := node.node_type.or NODETYPE_REFERENCE })

/-- `ClockProCache::get_mut`: same observable behaviour as `get` (the
mutable borrow is not modelled). -/
def get_mut (s : ClockProCache K V) (key : K) : Option V × ClockProCache K V :=
  match mapGet s.map key with
  | none => (none, s)
  | some token =>
    let node := s.slab token
    match node.value with
    | none => (none, s)
    | some v =>
      (some v, setSlab s token
        { node with node_type := node.node_type.or NODETYPE_REFERENCE })

/-- `ClockProCache::contains_key` (reads the state, mutates nothing). -/
def contains_key (s : ClockProCache K V) (key : K) : Bool :=
  match mapGet s.map key with
  | none => false
  | some token => (s.slab token).value.isSome

/-- `ClockProCache::new_with_test_capacity`. -/
def new_with_test_capacity (K V : Type) [Inhabited K] (capacity test_capacity : Nat) :
    Except String (ClockProCache K V) :=
  if capacity < 3 then
    .error "Cache size cannot be less than 3 entries"
  else
    .ok { capacity := capacity
          test_capacity := test_capacity
          cold_capacity := capacity
          map := []
          ring := []
          slab := fun _ => { key := default, value := none, node_type := NODETYPE_EMPTY }
          next_tok := 0
          hand_hot := 0
          hand_cold := 0
          hand_test := 0
          count_hot := 0
          count_cold := 0
          count_test := 0 }

/-- `ClockProCache::new`. -/
def new (K V : Type) [Inhabited K] (capacity : Nat) : Except String (ClockProCache K V) :=
  new_with_test_capacity K V capacity capacity

/-- States reachable from a freshly constructed cache by the public
operations (`insert`, `get`, `get_mut`; `contains_key` does not change
the state). -/
inductive Reachable {K V : Type} [DecidableEq K] [Inhabited K] : ClockProCache K V → Prop
  | init (c t : Nat) (s : ClockProCache K V) :
      new_with_test_capacity K V c t = .ok s → Reachable s
  | step_insert (s : ClockProCache K V) (fuel : Nat) (k : K) (v : V)
      (b : Bool) (s' : ClockProCache K V) :
      Reachable s → insert fuel s k v = some (b, s') → Reachable s'
  | step_get (s : ClockProCache K V) (k : K) :
      Reachable s → Reachable (get s k).2
  | step_get_mut (s : ClockProCache K V) (k : K) :
      Reachable s → Reachable (get_mut s k).2

/-- Number of ring tokens whose slot is in state HOT. -/
def countHotIn (s : ClockProCache K V) : Nat :=
  s.ring.countP (fun t => (s.slab t).node_type.hot)

/-- Number of ring tokens whose slot is in state COLD. -/
def countColdIn (s : ClockProCache K V) : Nat :=
  s.ring.countP (fun t => (s.slab t).node_type.cold)

/-- Number of ring tokens whose slot is in state TEST. -/
def countTestIn (s : ClockProCache K V) : Nat :=
  s.ring.countP (fun t => (s.slab t).node_type.test)

/-- Exactly one of the state bits HOT, COLD, TEST is set (and EMPTY is
clear): the flag value denotes a single live state. -/
def exclusiveState (n : NodeType) : Prop :=
  n.empty = false ∧
  ((n.hot = true ∧ n.cold = false ∧ n.test = false) ∨
   (n.hot = false ∧ n.cold = true ∧ n.test = false) ∨
   (n.hot = false ∧ n.cold = false ∧ n.test = true))

/-- Structural invariant of the cache, maintained by every internal step
(`count_test ≤ test_capacity` is excluded: it is briefly violated inside
`run_hand_cold` between a demotion and the test trim). -/
structure InvCore (s : ClockProCache K V) : Prop where
  cap3 : 3 ≤ s.capacity
  cc_lo : 1 ≤ s.cold_capacity
  cc_hi : s.cold_capacity ≤ s.capacity
  resident_le : s.count_hot + s.count_cold ≤ s.capacity
  hot_eq : s.count_hot = countHotIn s
  cold_eq : s.count_cold = countColdIn s
  test_eq : s.count_test = countTestIn s
  ring_nodup : s.ring.Nodup
  fresh : ∀ t ∈ s.ring, t < s.next_tok
  state_ok : ∀ t ∈ s.ring, exclusiveState (s.slab t).node_type
  value_ok : ∀ t ∈ s.ring,
    (s.slab t).value.isSome = ((s.slab t).node_type.hot || (s.slab t).node_type.cold)
  off_ring : ∀ t, t ∉ s.ring → (s.slab t).node_type.hot = false ∧
    (s.slab t).node_type.cold = false ∧ (s.slab t).node_type.test = false ∧
    (s.slab t).value = none
  keys_nodup : (s.map.map Prod.fst).Nodup
  map_ring : ∀ p ∈ s.map, p.2 ∈ s.ring ∧ (s.slab p.2).key = p.1
  ring_map : ∀ t ∈ s.ring, ∃ k, (k, t) ∈ s.map
  len_eq : s.map.length = s.ring.length

/-- The full invariant holding between public operations. -/
def CacheInv (s : ClockProCache K V) : Prop :=
  InvCore s ∧ s.count_test ≤ s.test_capacity

/-- Relation established by every run of a hand routine: the static
fields are unchanged, the ring only shrinks, absent keys stay absent,
`count_test` stays below the larger of its starting value and the test
capacity, and the structural invariant is preserved. -/
def StepOk (s s' : ClockProCache K V) : Prop :=
  s'.capacity = s.capacity ∧
  s'.test_capacity = s.test_capacity ∧
  s'.next_tok = s.next_tok ∧
  (∀ u, u ∈ s'.ring → u ∈ s.ring) ∧
  (∀ k : K, mapGet s.map k = none → mapGet s'.map k = none) ∧
  s'.count_test ≤ max s.count_test s.test_capacity ∧
  (InvCore s → InvCore s')


/-! ### Concrete scenario states (capacity 3, test capacity 3, `Nat` keys) -/

/-- The freshly constructed `C = 3`, `T = 3` cache over `Nat` keys and
values (the success value of `new_with_test_capacity Nat Nat 3 3`). -/
def cache0 : ClockProCache Nat Nat :=
  { capacity := 3, test_capacity := 3, cold_capacity := 3, map := [], ring := [],
    slab := fun _ => { key := 0, value := none, node_type := NODETYPE_EMPTY },
    next_tok := 0, hand_hot := 0, hand_cold := 0, hand_test := 0,
    count_hot := 0, count_cold := 0, count_test := 0 }

/-- One `insert` step with fuel 20 (enough for these tiny scenarios). -/
def insStep (k v : Nat) (s : ClockProCache Nat Nat) : ClockProCache Nat Nat :=
  match insert 20 s k v with
  | some (_, s') => s'
  | none => s

/-- One `get` step. -/
def getStep (k : Nat) (s : ClockProCache Nat Nat) : ClockProCache Nat Nat :=
  (get s k).2

/-- After `insert(A,1); insert(B,2); insert(C,3); insert(D,4)` with
`A,B,C,D = 1,2,3,4`: key 2 sits in a TEST slot (token 1). -/
def c4end : ClockProCache Nat Nat :=
  insStep 4 4 (insStep 3 3 (insStep 2 2 (insStep 1 1 cache0)))

/-- The scenario of the spec: `insert(A,1); get(A); get(A); insert(B,2);
insert(C,3); insert(D,4); insert(E,5)` with `A..E = 1..5`. -/
def c9end : ClockProCache Nat Nat :=
  insStep 5 5 (insStep 4 4 (insStep 3 3 (insStep 2 2
    (getStep 1 (getStep 1 (insStep 1 1 cache0))))))

/-- Result of one `run_hand_cold` over `c4end` (fuel 2). -/
def c4res : ClockProCache Nat Nat :=
  match run_hand_cold 2 c4end with
  | some s => s
  | none => c4end

/-- A small hand-built state with a TEST entry under `hand_test`, used to
exercise the `run_hand_test` reclaim step. -/
def tstate : ClockProCache Nat Nat :=
  { capacity := 3, test_capacity := 3, cold_capacity := 2,
    map := [(7, 0), (8, 1)], ring := [0, 1],
    slab := fun u => if u = 0 then { key := 7, value := none, node_type := NODETYPE_TEST }
                     else { key := 8, value := some 5, node_type := NODETYPE_COLD },
    next_tok := 2, hand_hot := 1, hand_cold := 1, hand_test := 0,
    count_hot := 0, count_cold := 1, count_test := 1 }

/-- Result of one `run_hand_test` over `tstate` (fuel 1). -/
def tstate2 : ClockProCache Nat Nat :=
  match run_hand_test 1 tstate with
  | some s => s
  | none => tstate

/-! ### Helper lemmas about the ring list operations -/

theorem length_insertBeforeTok (r : List Token) (to0 tok : Token) :
    (insertBeforeTok r to0 tok).length = r.length + 1 := by
  induction r with
  | nil => rfl
  | cons a rest ih =>
    by_cases h : a = to0 <;> simp [insertBeforeTok, h, ih]

theorem length_ringInsertAfter (r : List Token) (to0 tok : Token) :
    (ringInsertAfter r to0 tok).length = r.length + 1 := by
  cases r with
  | nil => rfl
  | cons a rest =>
    by_cases h : to0 = a <;> simp [ringInsertAfter, h, length_insertBeforeTok]

theorem mem_insertBeforeTok {u : Token} (r : List Token) (to0 tok : Token) :
    u ∈ insertBeforeTok r to0 tok ↔ u ∈ r ∨ u = tok := by
  induction r with
  | nil => simp [insertBeforeTok]
  | cons a rest ih =>
    by_cases h : a = to0 <;> simp [insertBeforeTok, h, ih] <;> tauto

theorem mem_ringInsertAfter {u : Token} (r : List Token) (to0 tok : Token) :
    u ∈ ringInsertAfter r to0 tok ↔ u ∈ r ∨ u = tok := by
  cases r with
  | nil => simp [ringInsertAfter]
  | cons a rest =>
    by_cases h : to0 = a
    · simp [ringInsertAfter, h]; tauto
    · simpa [ringInsertAfter, h] using mem_insertBeforeTok (a :: rest) to0 tok

theorem nodup_insertBeforeTok {r : List Token} (to0 : Token) {tok : Token}
    (hnd : r.Nodup) (hfresh : tok ∉ r) : (insertBeforeTok r to0 tok).Nodup := by
  induction r with
  | nil => simp [insertBeforeTok]
  | cons a rest ih =>
    rw [List.nodup_cons] at hnd
    by_cases h : a = to0
    · subst h
      simp only [insertBeforeTok, if_pos rfl]
      refine List.nodup_cons.2 ⟨?_, List.nodup_cons.2 ⟨hnd.1, hnd.2⟩⟩
      intro hc
      exact hfresh hc
    · simp only [insertBeforeTok, if_neg h]
      refine List.nodup_cons.2 ⟨?_, ih hnd.2 (fun hc => hfresh (List.mem_cons_of_mem _ hc))⟩
      intro hc
      rcases (mem_insertBeforeTok rest to0 tok).1 hc with h1 | h1
      · exact hnd.1 h1
      · exact hfresh (by simp [h1])

theorem nodup_ringInsertAfter {r : List Token} (to0 : Token) {tok : Token}
    (hnd : r.Nodup) (hfresh : tok ∉ r) : (ringInsertAfter r to0 tok).Nodup := by
  cases r with
  | nil => simp [ringInsertAfter]
  | cons a rest =>
    by_cases h : to0 = a
    · simp only [ringInsertAfter, if_pos h]
      rw [List.nodup_append]
      refine ⟨hnd, by simp, fun u hu hu2 => ?_⟩
      have : u = tok := by simpa using hu2
      exact hfresh (this ▸ hu)
    · simp only [ringInsertAfter, if_neg h]
      exact nodup_insertBeforeTok to0 hnd hfresh

theorem countP_insertBeforeTok (r : List Token) (to0 tok : Token) (p : Token → Bool) :
    (insertBeforeTok r to0 tok).countP p = r.countP p + (if p tok then 1 else 0) := by
  induction r with
  | nil => simp [insertBeforeTok, List.countP_cons]
  | cons a rest ih =>
    by_cases h : a = to0
    · simp only [insertBeforeTok, if_pos h, List.countP_cons]
    · simp only [insertBeforeTok, if_neg h, List.countP_cons, ih]
      omega

theorem countP_ringInsertAfter (r : List Token) (to0 tok : Token) (p : Token → Bool) :
    (ringInsertAfter r to0 tok).countP p = r.countP p + (if p tok then 1 else 0) := by
  cases r with
  | nil => simp [ringInsertAfter, List.countP_cons]
  | cons a rest =>
    by_cases h : to0 = a
    · simp only [ringInsertAfter, if_pos h, List.countP_append, List.countP_cons,
        List.countP_nil]
      omega
    · simp only [ringInsertAfter, if_neg h]
      exact countP_insertBeforeTok (a :: rest) to0 tok p

theorem ringRemove_cons (a : Token) (rest : List Token) (t : Token) :
    ringRemove (a :: rest) t =
      if a = t then ringRemove rest t else a :: ringRemove rest t := by
  by_cases h : a = t <;> simp [ringRemove, List.filter_cons, h]

theorem ringRemove_of_not_mem {r : List Token} {t : Token} (h : t ∉ r) :
    ringRemove r t = r :=
  List.filter_eq_self.2 (fun u hu => by
    simp only [decide_eq_true_eq]
    exact fun hc => h (hc ▸ hu))

theorem mem_ringRemove {u : Token} (r : List Token) (t : Token) :
    u ∈ ringRemove r t ↔ u ∈ r ∧ u ≠ t := by
  simp [ringRemove, List.mem_filter]

theorem nodup_ringRemove {r : List Token} (t : Token) (hnd : r.Nodup) :
    (ringRemove r t).Nodup :=
  List.Nodup.filter _ hnd

theorem length_ringRemove {r : List Token} {t : Token} (hnd : r.Nodup) (ht : t ∈ r) :
    (ringRemove r t).length + 1 = r.length := by
  induction r with
  | nil => cases ht
  | cons a rest ih =>
    rw [List.nodup_cons] at hnd
    rw [ringRemove_cons]
    by_cases h : a = t
    · subst h
      rw [if_pos rfl, ringRemove_of_not_mem hnd.1]
      rfl
    · have ht' : t ∈ rest := by
        rcases List.mem_cons.1 ht with h1 | h1
        · exact absurd h1.symm h
        · exact h1
      rw [if_neg h]
      simpa using ih hnd.2 ht'

theorem countP_ringRemove {r : List Token} {t : Token} (p : Token → Bool)
    (hnd : r.Nodup) (ht : t ∈ r) :
    (ringRemove r t).countP p + (if p t then 1 else 0) = r.countP p := by
  induction r with
  | nil => cases ht
  | cons a rest ih =>
    rw [List.nodup_cons] at hnd
    rw [ringRemove_cons]
    by_cases h : a = t
    · subst h
      rw [if_pos rfl, ringRemove_of_not_mem hnd.1, List.countP_cons]
    · have ht' : t ∈ rest := by
        rcases List.mem_cons.1 ht with h1 | h1
        · exact absurd h1.symm h
        · exact h1
      rw [if_neg h, List.countP_cons, List.countP_cons]
      have := ih hnd.2 ht'
      omega

theorem countP_congr_eq {r : List Token} {p q : Token → Bool}
    (h : ∀ u ∈ r, p u = q u) : r.countP p = r.countP q := by
  induction r with
  | nil => rfl
  | cons a rest ih =>
    simp only [List.countP_cons, h a (by simp),
      ih (fun u hu => h u (List.mem_cons_of_mem _ hu))]

theorem countP_update_point {r : List Token} (hnd : r.Nodup) {t : Token} (ht : t ∈ r)
    {p q : Token → Bool} (hag : ∀ u ∈ r, u ≠ t → p u = q u) :
    r.countP q + (if p t then 1 else 0) = r.countP p + (if q t then 1 else 0) := by
  induction r with
  | nil => cases ht
  | cons a rest ih =>
    rw [List.nodup_cons] at hnd
    by_cases h : a = t
    · subst h
      have : rest.countP p = rest.countP q :=
        countP_congr_eq (fun u hu => hag u (List.mem_cons_of_mem _ hu)
          (fun hc => hnd.1 (hc ▸ hu)))
      simp only [List.countP_cons, this]
      omega
    · have ht' : t ∈ rest := by
        rcases List.mem_cons.1 ht with h1 | h1
        · exact absurd h1.symm h
        · exact h1
      have := ih hnd.2 ht' (fun u hu hu' => hag u (List.mem_cons_of_mem _ hu) hu')
      simp only [List.countP_cons, hag a (by simp) h]
      omega

theorem countP_mem_pos {r : List Token} {t : Token} (p : Token → Bool)
    (ht : t ∈ r) (hp : p t = true) : 1 ≤ r.countP p :=
  List.countP_pos_iff.2 ⟨t, ht, hp⟩

/-! ### Helper lemmas about the key-index association list -/

section MapLemmas

variable {K V : Type} [DecidableEq K]

theorem mapGet_eq_none_iff (m : List (K × Token)) (k : K) :
    mapGet m k = none ↔ ∀ p ∈ m, p.1 ≠ k := by
  induction m with
  | nil => simp [mapGet]
  | cons a rest ih =>
    by_cases h : a.1 = k
    · simp only [mapGet, if_pos h]
      constructor
      · intro hc; cases hc
      · intro hall
        exact absurd h (hall a (by simp))
    · simp only [mapGet, if_neg h, ih]
      constructor
      · intro hall p hp
        rcases List.mem_cons.1 hp with h1 | h1
        · exact h1 ▸ h
        · exact hall p h1
      · intro hall p hp
        exact hall p (List.mem_cons_of_mem _ hp)

theorem mapGet_mem {m : List (K × Token)} {k : K} {t : Token}
    (h : mapGet m k = some t) : (k, t) ∈ m := by
  induction m with
  | nil => simp [mapGet] at h
  | cons a rest ih =>
    by_cases ha : a.1 = k
    · obtain ⟨k1, t1⟩ := a
      simp only [mapGet, if_pos ha] at h
      simp only at ha
      injection h with h2
      subst ha
      subst h2
      exact List.mem_cons_self _ _
    · simp only [mapGet, if_neg ha] at h
      exact List.mem_cons_of_mem _ (ih h)

theorem mapGet_mapRemove_self (m : List (K × Token)) (k : K) :
    mapGet (mapRemove m k) k = none := by
  rw [mapGet_eq_none_iff]
  intro p hp
  simp only [mapRemove, List.mem_filter, decide_eq_true_eq] at hp
  exact hp.2

theorem mapGet_mapRemove_ne (m : List (K × Token)) {k k' : K} (h : k' ≠ k) :
    mapGet (mapRemove m k) k' = mapGet m k' := by
  induction m with
  | nil => rfl
  | cons a rest ih =>
    have hcons : mapRemove (a :: rest) k =
        if a.1 = k then mapRemove rest k else a :: mapRemove rest k := by
      by_cases ha : a.1 = k <;> simp [mapRemove, List.filter_cons, ha]
    rw [hcons]
    by_cases ha : a.1 = k
    · have hne : a.1 ≠ k' := fun hc => h (hc.symm.trans ha)
      rw [if_pos ha, mapGet, if_neg hne]
      exact ih
    · rw [if_neg ha]
      by_cases hk : a.1 = k'
      · rw [mapGet, if_pos hk, mapGet, if_pos hk]
      · rw [mapGet, if_neg hk, mapGet, if_neg hk]
        exact ih

theorem mem_mapRemove {m : List (K × Token)} {k : K} {p : K × Token} :
    p ∈ mapRemove m k ↔ p ∈ m ∧ p.1 ≠ k := by
  simp [mapRemove, List.mem_filter]

theorem mapRemove_of_absent {m : List (K × Token)} {k : K}
    (h : mapGet m k = none) : mapRemove m k = m :=
  List.filter_eq_self.2 (fun p hp => by
    simp only [decide_eq_true_eq]
    exact (mapGet_eq_none_iff m k).1 h p hp)

theorem keys_nodup_mapRemove {m : List (K × Token)} (k : K)
    (h : (m.map Prod.fst).Nodup) : ((mapRemove m k).map Prod.fst).Nodup :=
  List.Nodup.sublist (List.Sublist.map Prod.fst (List.filter_sublist m)) h

theorem keys_nodup_unique {m : List (K × Token)} (h : (m.map Prod.fst).Nodup)
    {k : K} {a b : Token} (ha : (k, a) ∈ m) (hb : (k, b) ∈ m) : a = b := by
  induction m with
  | nil => cases ha
  | cons x rest ih =>
    rw [List.map_cons, List.nodup_cons] at h
    rcases List.mem_cons.1 ha with h1 | h1 <;> rcases List.mem_cons.1 hb with h2 | h2
    · exact congrArg Prod.snd (h1.trans h2.symm)
    · exfalso
      exact h.1 (by simpa [← h1] using List.mem_map_of_mem Prod.fst h2)
    · exfalso
      exact h.1 (by simpa [← h2] using List.mem_map_of_mem Prod.fst h1)
    · exact ih h.2 h1 h2

theorem length_mapRemove {m : List (K × Token)} {k : K} {t : Token}
    (hnd : (m.map Prod.fst).Nodup) (hmem : (k, t) ∈ m) :
    (mapRemove m k).length + 1 = m.length := by
  induction m with
  | nil => cases hmem
  | cons a rest ih =>
    rw [List.map_cons, List.nodup_cons] at hnd
    by_cases h : a.1 = k
    · have : mapRemove (a :: rest) k = rest := by
        simp only [mapRemove, List.filter_cons, decide_eq_true_eq]
        rw [if_neg (by simpa using h)]
        exact List.filter_eq_self.2 (fun p hp => by
          simp only [decide_eq_true_eq]
          intro hc
          exact hnd.1 (by simpa [h, ← hc] using List.mem_map_of_mem Prod.fst hp))
      simp [this]
    · have hmem' : (k, t) ∈ rest := by
        rcases List.mem_cons.1 hmem with h1 | h1
        · exact absurd (congrArg Prod.fst h1.symm) h
        · exact h1
      simp only [mapRemove, List.filter_cons, decide_eq_true_eq]
      rw [if_pos (by simpa using h)]
      simpa [mapRemove] using ih hnd.2 hmem'

theorem mapGet_mapInsert_self (m : List (K × Token)) (k : K) (t : Token) :
    mapGet (mapInsert m k t) k = some t := by
  simp [mapInsert, mapGet]

theorem mapGet_mapRemove_of_none {m : List (K × Token)} {k0 k : K}
    (h : mapGet m k = none) : mapGet (mapRemove m k0) k = none := by
  by_cases he : k = k0
  · subst he
    exact mapGet_mapRemove_self m k
  · rw [mapGet_mapRemove_ne m he]
    exact h

end MapLemmas

/-! ### The cache invariant -/

section Invariant

variable {K V : Type} [DecidableEq K]

/-- Generic bookkeeping of a `countP` over the ring under a single slab
update at a ring token. -/
theorem countP_setSlab (s : ClockProCache K V) (t : Token) (n : Node K V)
    (p : Node K V → Bool) (hnd : s.ring.Nodup) (ht : t ∈ s.ring) :
    s.ring.countP (fun u => p ((setSlab s t n).slab u)) +
        (if p (s.slab t) then 1 else 0)
      = s.ring.countP (fun u => p (s.slab u)) + (if p n then 1 else 0) := by
  have hag : ∀ u ∈ s.ring, u ≠ t →
      (fun u => p (s.slab u)) u = (fun u => p ((setSlab s t n).slab u)) u := by
    intro u _ hne
    simp [setSlab, hne]
  have := countP_update_point hnd ht hag
  simpa [setSlab] using this

/-- A slab update that does not change the predicate at the written token
leaves the `countP` unchanged. -/
theorem countP_setSlab_eq (s : ClockProCache K V) (t : Token) (n : Node K V)
    (p : Node K V → Bool) (hp : p n = p (s.slab t)) :
    s.ring.countP (fun u => p ((setSlab s t n).slab u))
      = s.ring.countP (fun u => p (s.slab u)) := by
  refine countP_congr_eq (fun u _ => ?_)
  by_cases h : u = t
  · subst h
    simp [setSlab, hp]
  · simp [setSlab, h]

theorem countP_three_sum {r : List Token} {f g h : Token → Bool}
    (hx : ∀ t ∈ r,
      (f t = true ∧ g t = false ∧ h t = false) ∨
      (f t = false ∧ g t = true ∧ h t = false) ∨
      (f t = false ∧ g t = false ∧ h t = true)) :
    r.countP f + r.countP g + r.countP h = r.length := by
  induction r with
  | nil => rfl
  | cons a rest ih =>
    have ha := hx a (by simp)
    have ih' := ih (fun t htm => hx t (List.mem_cons_of_mem _ htm))
    simp only [List.countP_cons, List.length_cons]
    rcases ha with ⟨e1, e2, e3⟩ | ⟨e1, e2, e3⟩ | ⟨e1, e2, e3⟩ <;>
      · simp [e1, e2, e3]
        omega

/-- With exclusive states on every ring token, the three counts add up to
the ring length. -/
theorem countIn_sum {s : ClockProCache K V}
    (hst : ∀ t ∈ s.ring, exclusiveState (s.slab t).node_type) :
    countHotIn s + countColdIn s + countTestIn s = s.ring.length := by
  refine countP_three_sum (fun t htm => ?_)
  exact (hst t htm).2

end Invariant

/-! ### Preservation of the invariant by the individual steps -/

section Steps

variable {K V : Type} [DecidableEq K]

/-- `InvCore` does not mention the hands, so it transports along any
state whose non-hand fields agree. -/
theorem invcore_congr {s s' : ClockProCache K V} (h : InvCore s)
    (hcap : s'.capacity = s.capacity) (htc : s'.test_capacity = s.test_capacity)
    (hcc : s'.cold_capacity = s.cold_capacity) (hmap : s'.map = s.map)
    (hring : s'.ring = s.ring) (hslab : s'.slab = s.slab)
    (hnt : s'.next_tok = s.next_tok) (hch : s'.count_hot = s.count_hot)
    (hccnt : s'.count_cold = s.count_cold) (hct : s'.count_test = s.count_test) :
    InvCore s' := by
  have e1 : countHotIn s' = countHotIn s := by unfold countHotIn; rw [hring, hslab]
  have e2 : countColdIn s' = countColdIn s := by unfold countColdIn; rw [hring, hslab]
  have e3 : countTestIn s' = countTestIn s := by unfold countTestIn; rw [hring, hslab]
  refine ⟨?_, ?_, ?_, ?_, ?_, ?_, ?_, ?_, ?_, ?_, ?_, ?_, ?_, ?_, ?_, ?_⟩
  · rw [hcap]; exact h.cap3
  · rw [hcc]; exact h.cc_lo
  · rw [hcc, hcap]; exact h.cc_hi
  · rw [hch, hccnt, hcap]; exact h.resident_le
  · rw [hch, e1]; exact h.hot_eq
  · rw [hccnt, e2]; exact h.cold_eq
  · rw [hct, e3]; exact h.test_eq
  · rw [hring]; exact h.ring_nodup
  · rw [hring, hnt]; exact h.fresh
  · rw [hring, hslab]; exact h.state_ok
  · rw [hring, hslab]; exact h.value_ok
  · rw [hring, hslab]; exact h.off_ring
  · rw [hmap]; exact h.keys_nodup
  · rw [hmap, hring, hslab]; exact h.map_ring
  · rw [hmap, hring]; exact h.ring_map
  · rw [hmap, hring]; exact h.len_eq

/-- Decreasing or keeping `cold_capacity` within its bounds preserves the
invariant. -/
theorem invcore_set_cc {s : ClockProCache K V} (h : InvCore s) {c : Nat}
    (h1 : 1 ≤ c) (h2 : c ≤ s.capacity) :
    InvCore { s with cold_capacity := c } := by
  refine ⟨h.cap3, h1, h2, h.resident_le, h.hot_eq, h.cold_eq, h.test_eq,
    h.ring_nodup, h.fresh, h.state_ok, h.value_ok, h.off_ring, h.keys_nodup,
    h.map_ring, h.ring_map, h.len_eq⟩

/-- From exclusivity of states: a COLD token is neither HOT nor TEST. -/
theorem cold_excl {n : NodeType} (hex : exclusiveState n) (hc : n.cold = true) :
    n.hot = false ∧ n.test = false := by
  rcases hex.2 with ⟨e1, e2, e3⟩ | ⟨e1, e2, e3⟩ | ⟨e1, e2, e3⟩
  · rw [e2] at hc; cases hc
  · exact ⟨e1, e3⟩
  · rw [e2] at hc; cases hc

/-- From exclusivity of states: a HOT token is neither COLD nor TEST. -/
theorem hot_excl {n : NodeType} (hex : exclusiveState n) (hh : n.hot = true) :
    n.cold = false ∧ n.test = false := by
  rcases hex.2 with ⟨e1, e2, e3⟩ | ⟨e1, e2, e3⟩ | ⟨e1, e2, e3⟩
  · exact ⟨e2, e3⟩
  · rw [e1] at hh; cases hh
  · rw [e1] at hh; cases hh

/-- From exclusivity of states: a TEST token is neither HOT nor COLD. -/
theorem test_excl {n : NodeType} (hex : exclusiveState n) (ht : n.test = true) :
    n.hot = false ∧ n.cold = false := by
  rcases hex.2 with ⟨e1, e2, e3⟩ | ⟨e1, e2, e3⟩ | ⟨e1, e2, e3⟩
  · rw [e3] at ht; cases ht
  · rw [e3] at ht; cases ht
  · exact ⟨e1, e2⟩

/-- A token whose slot carries a live state bit is in the ring. -/
theorem mem_ring_of_state {s : ClockProCache K V} (h : InvCore s) {t : Token}
    (hb : (s.slab t).node_type.hot = true ∨ (s.slab t).node_type.cold = true ∨
          (s.slab t).node_type.test = true) : t ∈ s.ring := by
  by_contra hmem
  obtain ⟨e1, e2, e3, _⟩ := h.off_ring t hmem
  rcases hb with hb | hb | hb
  · rw [e1] at hb; cases hb
  · rw [e2] at hb; cases hb
  · rw [e3] at hb; cases hb

/-- `countHotIn` bookkeeping under a slab update at a ring token. -/
theorem countHotIn_setSlab (s : ClockProCache K V) (t : Token) (n : Node K V)
    (hnd : s.ring.Nodup) (ht : t ∈ s.ring) :
    countHotIn (setSlab s t n) + (if (s.slab t).node_type.hot then 1 else 0)
      = countHotIn s + (if n.node_type.hot then 1 else 0) := by
  have := countP_setSlab s t n (fun nd => nd.node_type.hot) hnd ht
  simpa [countHotIn, setSlab] using this

/-- `countColdIn` bookkeeping under a slab update at a ring token. -/
theorem countColdIn_setSlab (s : ClockProCache K V) (t : Token) (n : Node K V)
    (hnd : s.ring.Nodup) (ht : t ∈ s.ring) :
    countColdIn (setSlab s t n) + (if (s.slab t).node_type.cold then 1 else 0)
      = countColdIn s + (if n.node_type.cold then 1 else 0) := by
  have := countP_setSlab s t n (fun nd => nd.node_type.cold) hnd ht
  simpa [countColdIn, setSlab] using this

/-- `countTestIn` bookkeeping under a slab update at a ring token. -/
theorem countTestIn_setSlab (s : ClockProCache K V) (t : Token) (n : Node K V)
    (hnd : s.ring.Nodup) (ht : t ∈ s.ring) :
    countTestIn (setSlab s t n) + (if (s.slab t).node_type.test then 1 else 0)
      = countTestIn s + (if n.node_type.test then 1 else 0) := by
  have := countP_setSlab s t n (fun nd => nd.node_type.test) hnd ht
  simpa [countTestIn, setSlab] using this

/-- Promotion of the COLD token under `hand_cold` to HOT
(the REFERENCE-set branch of `run_hand_cold`). -/
theorem invcore_promote {s : ClockProCache K V} (h : InvCore s)
    (hcold : (s.slab s.hand_cold).node_type.cold = true) :
    InvCore (promote_cold s) ∧ 1 ≤ s.count_cold := by
  unfold promote_cold
  have hmem : s.hand_cold ∈ s.ring := mem_ring_of_state h (Or.inr (Or.inl hcold))
  obtain ⟨hhot_old, htest_old⟩ := cold_excl (h.state_ok _ hmem) hcold
  have hcpos : 1 ≤ s.count_cold := by
    rw [h.cold_eq]
    exact countP_mem_pos _ hmem hcold
  have chot := countHotIn_setSlab s s.hand_cold
    { key := (s.slab s.hand_cold).key, value := (s.slab s.hand_cold).value,
      node_type := NODETYPE_HOT } h.ring_nodup hmem
  have ccold := countColdIn_setSlab s s.hand_cold
    { key := (s.slab s.hand_cold).key, value := (s.slab s.hand_cold).value,
      node_type := NODETYPE_HOT } h.ring_nodup hmem
  have ctest := countTestIn_setSlab s s.hand_cold
    { key := (s.slab s.hand_cold).key, value := (s.slab s.hand_cold).value,
      node_type := NODETYPE_HOT } h.ring_nodup hmem
  rw [if_neg (by simp [hhot_old]), if_pos (by simp [NODETYPE_HOT])] at chot
  rw [if_pos (by simp [hcold]), if_neg (by simp [NODETYPE_HOT])] at ccold
  rw [if_neg (by simp [htest_old]), if_neg (by simp [NODETYPE_HOT])] at ctest
  refine ⟨⟨h.cap3, h.cc_lo, h.cc_hi, ?_, ?_, ?_, ?_, h.ring_nodup, h.fresh,
    ?_, ?_, ?_, h.keys_nodup, ?_, h.ring_map, h.len_eq⟩, hcpos⟩
  · show (s.count_hot + 1) + (s.count_cold - 1) ≤ s.capacity
    have := h.resident_le
    omega
  · show s.count_hot + 1 = countHotIn (setSlab s s.hand_cold
      { key := (s.slab s.hand_cold).key, value := (s.slab s.hand_cold).value,
        node_type := NODETYPE_HOT })
    rw [h.hot_eq]
    omega
  · show s.count_cold - 1 = countColdIn (setSlab s s.hand_cold
      { key := (s.slab s.hand_cold).key, value := (s.slab s.hand_cold).value,
        node_type := NODETYPE_HOT })
    rw [h.cold_eq]
    omega
  · show s.count_test = countTestIn (setSlab s s.hand_cold
      { key := (s.slab s.hand_cold).key, value := (s.slab s.hand_cold).value,
        node_type := NODETYPE_HOT })
    rw [h.test_eq]
    omega
  · intro t htm
    by_cases he : t = s.hand_cold
    · subst he
      simp [setSlab, exclusiveState, NODETYPE_HOT]
    · have := h.state_ok t htm
      simpa [setSlab, he] using this
  · intro t htm
    by_cases he : t = s.hand_cold
    · subst he
      have := h.value_ok _ hmem
      simp only [hcold, Bool.or_true] at this
      simp [setSlab, NODETYPE_HOT, this]
    · have := h.value_ok t htm
      simpa [setSlab, he] using this
  · intro t htm
    have hne : t ≠ s.hand_cold := fun hc => htm (hc ▸ hmem)
    have := h.off_ring t htm
    simpa [setSlab, hne] using this
  · intro p hp
    obtain ⟨hm, hk⟩ := h.map_ring p hp
    refine ⟨hm, ?_⟩
    by_cases he : p.2 = s.hand_cold
    · rw [he] at hk ⊢
      simpa [setSlab] using hk
    · simpa [setSlab, he] using hk

/-- Demotion of the COLD token under `hand_cold` to non-resident TEST
(the REFERENCE-clear branch of `run_hand_cold`). -/
theorem invcore_demote_cold {s : ClockProCache K V} (h : InvCore s)
    (hcold : (s.slab s.hand_cold).node_type.cold = true) :
    InvCore (demote_cold s) ∧ 1 ≤ s.count_cold := by
  unfold demote_cold
  have hmem : s.hand_cold ∈ s.ring := mem_ring_of_state h (Or.inr (Or.inl hcold))
  obtain ⟨hhot_old, htest_old⟩ := cold_excl (h.state_ok _ hmem) hcold
  have hcpos : 1 ≤ s.count_cold := by
    rw [h.cold_eq]
    exact countP_mem_pos _ hmem hcold
  have hbh : (((s.slab s.hand_cold).node_type.andNot NODETYPE_MASK).or
      NODETYPE_TEST).hot = false := by
    simp [NodeType.andNot, NodeType.or, NODETYPE_MASK, NODETYPE_TEST]
  have hbc : (((s.slab s.hand_cold).node_type.andNot NODETYPE_MASK).or
      NODETYPE_TEST).cold = false := by
    simp [NodeType.andNot, NodeType.or, NODETYPE_MASK, NODETYPE_TEST]
  have hbt : (((s.slab s.hand_cold).node_type.andNot NODETYPE_MASK).or
      NODETYPE_TEST).test = true := by
    simp [NodeType.andNot, NodeType.or, NODETYPE_MASK, NODETYPE_TEST]
  have hbe : (((s.slab s.hand_cold).node_type.andNot NODETYPE_MASK).or
      NODETYPE_TEST).empty = false := by
    simp [NodeType.andNot, NodeType.or, NODETYPE_MASK, NODETYPE_TEST]
  have chot := countHotIn_setSlab s s.hand_cold
    { key := (s.slab s.hand_cold).key, value := none,
      node_type := ((s.slab s.hand_cold).node_type.andNot NODETYPE_MASK).or
        NODETYPE_TEST } h.ring_nodup hmem
  have ccold := countColdIn_setSlab s s.hand_cold
    { key := (s.slab s.hand_cold).key, value := none,
      node_type := ((s.slab s.hand_cold).node_type.andNot NODETYPE_MASK).or
        NODETYPE_TEST } h.ring_nodup hmem
  have ctest := countTestIn_setSlab s s.hand_cold
    { key := (s.slab s.hand_cold).key, value := none,
      node_type := ((s.slab s.hand_cold).node_type.andNot NODETYPE_MASK).or
        NODETYPE_TEST } h.ring_nodup hmem
  rw [if_neg (by simp [hhot_old]), if_neg (by simp [hbh])] at chot
  rw [if_pos (by simp [hcold]), if_neg (by simp [hbc])] at ccold
  rw [if_neg (by simp [htest_old]), if_pos (by simp [hbt])] at ctest
  refine ⟨⟨h.cap3, h.cc_lo, h.cc_hi, ?_, ?_, ?_, ?_, h.ring_nodup, h.fresh,
    ?_, ?_, ?_, h.keys_nodup, ?_, h.ring_map, h.len_eq⟩, hcpos⟩
  · show s.count_hot + (s.count_cold - 1) ≤ s.capacity
    have := h.resident_le
    omega
  · show s.count_hot = countHotIn (setSlab s s.hand_cold
      { key := (s.slab s.hand_cold).key, value := none,
        node_type := ((s.slab s.hand_cold).node_type.andNot NODETYPE_MASK).or
          NODETYPE_TEST })
    rw [h.hot_eq]
    omega
  · show s.count_cold - 1 = countColdIn (setSlab s s.hand_cold
      { key := (s.slab s.hand_cold).key, value := none,
        node_type := ((s.slab s.hand_cold).node_type.andNot NODETYPE_MASK).or
          NODETYPE_TEST })
    rw [h.cold_eq]
    omega
  · show s.count_test + 1 = countTestIn (setSlab s s.hand_cold
      { key := (s.slab s.hand_cold).key, value := none,
        node_type := ((s.slab s.hand_cold).node_type.andNot NODETYPE_MASK).or
          NODETYPE_TEST })
    rw [h.test_eq]
    omega
  · intro t htm
    by_cases he : t = s.hand_cold
    · subst he
      simp [setSlab, exclusiveState, hbh, hbc, hbt, hbe]
    · have := h.state_ok t htm
      simpa [setSlab, he] using this
  · intro t htm
    by_cases he : t = s.hand_cold
    · subst he
      simp [setSlab, hbh, hbc]
    · have := h.value_ok t htm
      simpa [setSlab, he] using this
  · intro t htm
    have hne : t ≠ s.hand_cold := fun hc => htm (hc ▸ hmem)
    have := h.off_ring t htm
    simpa [setSlab, hne] using this
  · intro p hp
    obtain ⟨hm, hk⟩ := h.map_ring p hp
    refine ⟨hm, ?_⟩
    by_cases he : p.2 = s.hand_cold
    · rw [he] at hk ⊢
      simpa [setSlab] using hk
    · simpa [setSlab, he] using hk

/-- Clearing the REFERENCE bit on the slot under `hand_hot`
(the REFERENCE-set branch of `run_hand_hot`): pure bit change, the
invariant transports. -/
theorem invcore_hot_refclear {s : ClockProCache K V} (h : InvCore s) :
    InvCore (setSlab s s.hand_hot
      { key := (s.slab s.hand_hot).key, value := (s.slab s.hand_hot).value,
        node_type := (s.slab s.hand_hot).node_type.andNot NODETYPE_REFERENCE }) := by
  have chot : countHotIn (setSlab s s.hand_hot
      { key := (s.slab s.hand_hot).key, value := (s.slab s.hand_hot).value,
        node_type := (s.slab s.hand_hot).node_type.andNot NODETYPE_REFERENCE })
      = countHotIn s := by
    unfold countHotIn
    refine countP_setSlab_eq s s.hand_hot _ (fun nd => nd.node_type.hot) ?_
    simp [NodeType.andNot, NODETYPE_REFERENCE]
  have ccold : countColdIn (setSlab s s.hand_hot
      { key := (s.slab s.hand_hot).key, value := (s.slab s.hand_hot).value,
        node_type := (s.slab s.hand_hot).node_type.andNot NODETYPE_REFERENCE })
      = countColdIn s := by
    unfold countColdIn
    refine countP_setSlab_eq s s.hand_hot _ (fun nd => nd.node_type.cold) ?_
    simp [NodeType.andNot, NODETYPE_REFERENCE]
  have ctest : countTestIn (setSlab s s.hand_hot
      { key := (s.slab s.hand_hot).key, value := (s.slab s.hand_hot).value,
        node_type := (s.slab s.hand_hot).node_type.andNot NODETYPE_REFERENCE })
      = countTestIn s := by
    unfold countTestIn
    refine countP_setSlab_eq s s.hand_hot _ (fun nd => nd.node_type.test) ?_
    simp [NodeType.andNot, NODETYPE_REFERENCE]
  refine ⟨h.cap3, h.cc_lo, h.cc_hi, h.resident_le, ?_, ?_, ?_, h.ring_nodup,
    h.fresh, ?_, ?_, ?_, h.keys_nodup, ?_, h.ring_map, h.len_eq⟩
  · rw [chot]; exact h.hot_eq
  · rw [ccold]; exact h.cold_eq
  · rw [ctest]; exact h.test_eq
  · intro t htm
    have := h.state_ok t htm
    by_cases he : t = s.hand_hot
    · subst he
      unfold exclusiveState at this ⊢
      simpa [setSlab, NodeType.andNot, NODETYPE_REFERENCE] using this
    · simpa [setSlab, he] using this
  · intro t htm
    have := h.value_ok t htm
    by_cases he : t = s.hand_hot
    · subst he
      simpa [setSlab, NodeType.andNot, NODETYPE_REFERENCE] using this
    · simpa [setSlab, he] using this
  · intro t htm
    have := h.off_ring t htm
    by_cases he : t = s.hand_hot
    · subst he
      simpa [setSlab, NodeType.andNot, NODETYPE_REFERENCE] using this
    · simpa [setSlab, he] using this
  · intro p hp
    obtain ⟨hm, hk⟩ := h.map_ring p hp
    refine ⟨hm, ?_⟩
    by_cases he : p.2 = s.hand_hot
    · rw [he] at hk ⊢
      simpa [setSlab] using hk
    · simpa [setSlab, he] using hk

/-- Demotion of the HOT token under `hand_hot` to COLD
(the REFERENCE-clear branch of `run_hand_hot`). -/
theorem invcore_hot_demote {s : ClockProCache K V} (h : InvCore s)
    (hhot : (s.slab s.hand_hot).node_type.hot = true) :
    InvCore { setSlab s s.hand_hot
        { key := (s.slab s.hand_hot).key, value := (s.slab s.hand_hot).value,
          node_type := ((s.slab s.hand_hot).node_type.andNot NODETYPE_MASK).or
            NODETYPE_COLD } with
      count_hot := s.count_hot - 1, count_cold := s.count_cold + 1 } ∧
    1 ≤ s.count_hot := by
  have hmem : s.hand_hot ∈ s.ring := mem_ring_of_state h (Or.inl hhot)
  obtain ⟨hcold_old, htest_old⟩ := hot_excl (h.state_ok _ hmem) hhot
  have hhpos : 1 ≤ s.count_hot := by
    rw [h.hot_eq]
    exact countP_mem_pos _ hmem hhot
  have hbh : (((s.slab s.hand_hot).node_type.andNot NODETYPE_MASK).or
      NODETYPE_COLD).hot = false := by
    simp [NodeType.andNot, NodeType.or, NODETYPE_MASK, NODETYPE_COLD]
  have hbc : (((s.slab s.hand_hot).node_type.andNot NODETYPE_MASK).or
      NODETYPE_COLD).cold = true := by
    simp [NodeType.andNot, NodeType.or, NODETYPE_MASK, NODETYPE_COLD]
  have hbt : (((s.slab s.hand_hot).node_type.andNot NODETYPE_MASK).or
      NODETYPE_COLD).test = false := by
    simp [NodeType.andNot, NodeType.or, NODETYPE_MASK, NODETYPE_COLD]
  have hbe : (((s.slab s.hand_hot).node_type.andNot NODETYPE_MASK).or
      NODETYPE_COLD).empty = false := by
    simp [NodeType.andNot, NodeType.or, NODETYPE_MASK, NODETYPE_COLD]
  have chot := countHotIn_setSlab s s.hand_hot
    { key := (s.slab s.hand_hot).key, value := (s.slab s.hand_hot).value,
      node_type := ((s.slab s.hand_hot).node_type.andNot NODETYPE_MASK).or
        NODETYPE_COLD } h.ring_nodup hmem
  have ccold := countColdIn_setSlab s s.hand_hot
    { key := (s.slab s.hand_hot).key, value := (s.slab s.hand_hot).value,
      node_type := ((s.slab s.hand_hot).node_type.andNot NODETYPE_MASK).or
        NODETYPE_COLD } h.ring_nodup hmem
  have ctest := countTestIn_setSlab s s.hand_hot
    { key := (s.slab s.hand_hot).key, value := (s.slab s.hand_hot).value,
      node_type := ((s.slab s.hand_hot).node_type.andNot NODETYPE_MASK).or
        NODETYPE_COLD } h.ring_nodup hmem
  rw [if_pos (by simp [hhot]), if_neg (by simp [hbh])] at chot
  rw [if_neg (by simp [hcold_old]), if_pos (by simp [hbc])] at ccold
  rw [if_neg (by simp [htest_old]), if_neg (by simp [hbt])] at ctest
  refine ⟨⟨h.cap3, h.cc_lo, h.cc_hi, ?_, ?_, ?_, ?_, h.ring_nodup, h.fresh,
    ?_, ?_, ?_, h.keys_nodup, ?_, h.ring_map, h.len_eq⟩, hhpos⟩
  · show (s.count_hot - 1) + (s.count_cold + 1) ≤ s.capacity
    have := h.resident_le
    omega
  · show s.count_hot - 1 = countHotIn (setSlab s s.hand_hot
      { key := (s.slab s.hand_hot).key, value := (s.slab s.hand_hot).value,
        node_type := ((s.slab s.hand_hot).node_type.andNot NODETYPE_MASK).or
          NODETYPE_COLD })
    rw [h.hot_eq]
    omega
  · show s.count_cold + 1 = countColdIn (setSlab s s.hand_hot
      { key := (s.slab s.hand_hot).key, value := (s.slab s.hand_hot).value,
        node_type := ((s.slab s.hand_hot).node_type.andNot NODETYPE_MASK).or
          NODETYPE_COLD })
    rw [h.cold_eq]
    omega
  · show s.count_test = countTestIn (setSlab s s.hand_hot
      { key := (s.slab s.hand_hot).key, value := (s.slab s.hand_hot).value,
        node_type := ((s.slab s.hand_hot).node_type.andNot NODETYPE_MASK).or
          NODETYPE_COLD })
    rw [h.test_eq]
    omega
  · intro t htm
    by_cases he : t = s.hand_hot
    · subst he
      simp [setSlab, exclusiveState, hbh, hbc, hbt, hbe]
    · have := h.state_ok t htm
      simpa [setSlab, he] using this
  · intro t htm
    by_cases he : t = s.hand_hot
    · subst he
      have := h.value_ok _ hmem
      simp only [hhot, Bool.true_or] at this
      simp [setSlab, hbh, hbc, this]
    · have := h.value_ok t htm
      simpa [setSlab, he] using this
  · intro t htm
    have hne : t ≠ s.hand_hot := fun hc => htm (hc ▸ hmem)
    have := h.off_ring t htm
    simpa [setSlab, hne] using this
  · intro p hp
    obtain ⟨hm, hk⟩ := h.map_ring p hp
    refine ⟨hm, ?_⟩
    by_cases he : p.2 = s.hand_hot
    · rw [he] at hk ⊢
      simpa [setSlab] using hk
    · simpa [setSlab, he] using hk

/-- Overwriting the value of a resident entry and setting its REFERENCE
bit (the resident branch of `insert`, and `get` / `get_mut` hits). -/
theorem invcore_ref_set {s : ClockProCache K V} (h : InvCore s) {t : Token}
    (ht : t ∈ s.ring) (hval : (s.slab t).value.isSome = true) (v : V) :
    InvCore (setSlab s t
      { key := (s.slab t).key, value := some v,
        node_type := (s.slab t).node_type.or NODETYPE_REFERENCE }) := by
  have chot : countHotIn (setSlab s t
      { key := (s.slab t).key, value := some v,
        node_type := (s.slab t).node_type.or NODETYPE_REFERENCE })
      = countHotIn s := by
    unfold countHotIn
    refine countP_setSlab_eq s t _ (fun nd => nd.node_type.hot) ?_
    simp [NodeType.or, NODETYPE_REFERENCE]
  have ccold : countColdIn (setSlab s t
      { key := (s.slab t).key, value := some v,
        node_type := (s.slab t).node_type.or NODETYPE_REFERENCE })
      = countColdIn s := by
    unfold countColdIn
    refine countP_setSlab_eq s t _ (fun nd => nd.node_type.cold) ?_
    simp [NodeType.or, NODETYPE_REFERENCE]
  have ctest : countTestIn (setSlab s t
      { key := (s.slab t).key, value := some v,
        node_type := (s.slab t).node_type.or NODETYPE_REFERENCE })
      = countTestIn s := by
    unfold countTestIn
    refine countP_setSlab_eq s t _ (fun nd => nd.node_type.test) ?_
    simp [NodeType.or, NODETYPE_REFERENCE]
  refine ⟨h.cap3, h.cc_lo, h.cc_hi, h.resident_le, ?_, ?_, ?_, h.ring_nodup,
    h.fresh, ?_, ?_, ?_, h.keys_nodup, ?_, h.ring_map, h.len_eq⟩
  · rw [chot]; exact h.hot_eq
  · rw [ccold]; exact h.cold_eq
  · rw [ctest]; exact h.test_eq
  · intro u hu
    have := h.state_ok u hu
    by_cases he : u = t
    · subst he
      unfold exclusiveState at this ⊢
      simpa [setSlab, NodeType.or, NODETYPE_REFERENCE] using this
    · simpa [setSlab, he] using this
  · intro u hu
    have := h.value_ok u hu
    by_cases he : u = t
    · subst he
      rw [hval] at this
      simp [setSlab, NodeType.or, NODETYPE_REFERENCE, ← this]
    · simpa [setSlab, he] using this
  · intro u hu
    have hne : u ≠ t := fun hc => hu (hc ▸ ht)
    have := h.off_ring u hu
    simpa [setSlab, hne] using this
  · intro p hp
    obtain ⟨hm, hk⟩ := h.map_ring p hp
    refine ⟨hm, ?_⟩
    by_cases he : p.2 = t
    · rw [he] at hk ⊢
      simpa [setSlab] using hk
    · simpa [setSlab, he] using hk

/-- `meta_del` of a TEST token together with the `count_test` decrement
performed by its caller (`run_hand_test`, or `insert` on a TEST hit)
preserves the structural invariant. -/
theorem invcore_meta_del_test {s : ClockProCache K V} (h : InvCore s) {t : Token}
    (htest : (s.slab t).node_type.test = true) :
    InvCore { meta_del s t with count_test := s.count_test - 1 } ∧
    1 ≤ s.count_test := by
  have hmem : t ∈ s.ring := mem_ring_of_state h (Or.inr (Or.inr htest))
  obtain ⟨hhot_old, hcold_old⟩ := test_excl (h.state_ok _ hmem) htest
  have htpos : 1 ≤ s.count_test := by
    rw [h.test_eq]
    exact countP_mem_pos _ hmem htest
  obtain ⟨k0, hk0⟩ := h.ring_map t hmem
  have hkey0 : (s.slab t).key = k0 := (h.map_ring _ hk0).2
  have hslab : (meta_del s t).slab = fun u => if u = t then
      { key := (s.slab t).key, value := none,
        node_type := ((s.slab t).node_type.andNot NODETYPE_MASK).or NODETYPE_EMPTY }
      else s.slab u := rfl
  have cagree : ∀ p : Node K V → Bool,
      (ringRemove s.ring t).countP (fun u => p ((meta_del s t).slab u)) =
      (ringRemove s.ring t).countP (fun u => p (s.slab u)) := by
    intro p
    refine countP_congr_eq (fun u hu => ?_)
    have hne : u ≠ t := ((mem_ringRemove _ _).1 hu).2
    rw [hslab]
    simp [hne]
  have hlen := length_mapRemove h.keys_nodup hk0
  have hrlen := length_ringRemove h.ring_nodup hmem
  refine ⟨⟨h.cap3, h.cc_lo, h.cc_hi, h.resident_le, ?_, ?_, ?_, ?_, ?_,
    ?_, ?_, ?_, ?_, ?_, ?_, ?_⟩, htpos⟩
  · show s.count_hot = countHotIn { meta_del s t with count_test := s.count_test - 1 }
    have step : countHotIn { meta_del s t with count_test := s.count_test - 1 }
        = countHotIn s := by
      show (ringRemove s.ring t).countP
          (fun u => ((meta_del s t).slab u).node_type.hot) = countHotIn s
      rw [cagree (fun nd => nd.node_type.hot)]
      have := countP_ringRemove (fun u => (s.slab u).node_type.hot)
        h.ring_nodup hmem
      rw [if_neg (by simp [hhot_old])] at this
      unfold countHotIn
      omega
    rw [step]
    exact h.hot_eq
  · show s.count_cold = countColdIn { meta_del s t with count_test := s.count_test - 1 }
    have step : countColdIn { meta_del s t with count_test := s.count_test - 1 }
        = countColdIn s := by
      show (ringRemove s.ring t).countP
          (fun u => ((meta_del s t).slab u).node_type.cold) = countColdIn s
      rw [cagree (fun nd => nd.node_type.cold)]
      have := countP_ringRemove (fun u => (s.slab u).node_type.cold)
        h.ring_nodup hmem
      rw [if_neg (by simp [hcold_old])] at this
      unfold countColdIn
      omega
    rw [step]
    exact h.cold_eq
  · show s.count_test - 1 = countTestIn { meta_del s t with count_test := s.count_test - 1 }
    have step : countTestIn { meta_del s t with count_test := s.count_test - 1 } + 1
        = countTestIn s := by
      show (ringRemove s.ring t).countP
          (fun u => ((meta_del s t).slab u).node_type.test) + 1 = countTestIn s
      rw [cagree (fun nd => nd.node_type.test)]
      have := countP_ringRemove (fun u => (s.slab u).node_type.test)
        h.ring_nodup hmem
      rw [if_pos (by simp [htest])] at this
      unfold countTestIn
      omega
    have := h.test_eq
    omega
  · show (ringRemove s.ring t).Nodup
    exact nodup_ringRemove t h.ring_nodup
  · intro u hu
    have := ((mem_ringRemove _ _).1 hu).1
    exact h.fresh u this
  · intro u hu
    obtain ⟨hu1, hu2⟩ := (mem_ringRemove _ _).1 hu
    have := h.state_ok u hu1
    show exclusiveState ((meta_del s t).slab u).node_type
    rw [hslab]
    simpa [hu2] using this
  · intro u hu
    obtain ⟨hu1, hu2⟩ := (mem_ringRemove _ _).1 hu
    have := h.value_ok u hu1
    show ((meta_del s t).slab u).value.isSome = _
    rw [hslab]
    simpa [hu2] using this
  · intro u hu
    show ((meta_del s t).slab u).node_type.hot = false ∧ _
    rw [hslab]
    by_cases he : u = t
    · subst he
      simp [NodeType.andNot, NodeType.or, NODETYPE_MASK, NODETYPE_EMPTY]
    · have hu2 : u ∉ s.ring := by
        intro hc
        exact hu ((mem_ringRemove _ _).2 ⟨hc, he⟩)
      have := h.off_ring u hu2
      simpa [he] using this
  · show ((mapRemove s.map (s.slab t).key).map Prod.fst).Nodup
    exact keys_nodup_mapRemove _ h.keys_nodup
  · intro p hp
    have hp' : p ∈ mapRemove s.map (s.slab t).key := hp
    obtain ⟨hp1, hp2⟩ := mem_mapRemove.1 hp'
    obtain ⟨hm, hk⟩ := h.map_ring p hp1
    have hne : p.2 ≠ t := by
      intro hc
      rw [hc] at hk
      exact hp2 hk.symm
    refine ⟨(mem_ringRemove _ _).2 ⟨hm, hne⟩, ?_⟩
    show ((meta_del s t).slab p.2).key = p.1
    rw [hslab]
    simpa [hne] using hk
  · intro u hu
    obtain ⟨hu1, hu2⟩ := (mem_ringRemove _ _).1 hu
    obtain ⟨k, hk⟩ := h.ring_map u hu1
    refine ⟨k, ?_⟩
    show (k, u) ∈ mapRemove s.map (s.slab t).key
    refine mem_mapRemove.2 ⟨hk, ?_⟩
    intro hc
    rw [hkey0] at hc
    exact hu2 (keys_nodup_unique h.keys_nodup (hc ▸ hk) hk0)
  · show (mapRemove s.map (s.slab t).key).length = (ringRemove s.ring t).length
    rw [hkey0]
    have := h.len_eq
    omega

/-- The splice part of `meta_add` (after `evict` has made room), together
with the count increment performed by its caller, preserves the
structural invariant; the new entry is indexed under the fresh token. -/
theorem invcore_meta_add {s0 : ClockProCache K V} (h : InvCore s0)
    (hroom : s0.count_hot + s0.count_cold < s0.capacity)
    {key : K} (habs : mapGet s0.map key = none)
    (node : Node K V) (hkey : node.key = key)
    (hex : exclusiveState node.node_type) (hts : node.node_type.test = false)
    (hval : node.value.isSome = true) :
    InvCore { meta_add_pure s0 key node with
      count_hot := s0.count_hot + (if node.node_type.hot then 1 else 0),
      count_cold := s0.count_cold + (if node.node_type.cold then 1 else 0) } ∧
    mapGet (meta_add_pure s0 key node).map key = some s0.next_tok ∧
    (meta_add_pure s0 key node).slab s0.next_tok = node ∧
    (∀ u, u ∈ (meta_add_pure s0 key node).ring → u ∈ s0.ring ∨ u = s0.next_tok) := by
  have hfresh : s0.next_tok ∉ s0.ring := by
    intro hc
    exact absurd (h.fresh _ hc) (lt_irrefl _)
  have hone : (if node.node_type.hot then 1 else 0) +
      (if node.node_type.cold then 1 else 0) = 1 := by
    rcases hex.2 with ⟨e1, e2, e3⟩ | ⟨e1, e2, e3⟩ | ⟨e1, e2, e3⟩
    · simp [e1, e2]
    · simp [e1, e2]
    · rw [e3] at hts; cases hts
  have hhc : (node.node_type.hot || node.node_type.cold) = true := by
    rcases hex.2 with ⟨e1, e2, e3⟩ | ⟨e1, e2, e3⟩ | ⟨e1, e2, e3⟩
    · simp [e1]
    · simp [e1, e2]
    · rw [e3] at hts; cases hts
  have hmi : mapInsert s0.map key s0.next_tok = (key, s0.next_tok) :: s0.map := by
    unfold mapInsert
    rw [mapRemove_of_absent habs]
  have hkeyabs : ∀ p ∈ s0.map, p.1 ≠ key := (mapGet_eq_none_iff _ _).1 habs
  -- the common (hand-free) part of `meta_add_pure`
  have hcore : InvCore { s0 with
      ring := ringInsertAfter s0.ring s0.hand_hot s0.next_tok,
      next_tok := s0.next_tok + 1,
      slab := fun u => if u = s0.next_tok then node else s0.slab u,
      map := mapInsert s0.map key s0.next_tok,
      count_hot := s0.count_hot + (if node.node_type.hot then 1 else 0),
      count_cold := s0.count_cold + (if node.node_type.cold then 1 else 0) } := by
    have cnt : ∀ p : Node K V → Bool,
        (ringInsertAfter s0.ring s0.hand_hot s0.next_tok).countP
          (fun u => p (if u = s0.next_tok then node else s0.slab u))
        = s0.ring.countP (fun u => p (s0.slab u)) + (if p node then 1 else 0) := by
      intro p
      rw [countP_ringInsertAfter]
      have : s0.ring.countP (fun u => p (if u = s0.next_tok then node else s0.slab u))
          = s0.ring.countP (fun u => p (s0.slab u)) := by
        refine countP_congr_eq (fun u hu => ?_)
        have hne : u ≠ s0.next_tok := fun hc => hfresh (hc ▸ hu)
        simp [hne]
      rw [this]
      simp
    refine ⟨h.cap3, h.cc_lo, h.cc_hi, ?_, ?_, ?_, ?_, ?_, ?_, ?_, ?_, ?_, ?_, ?_, ?_, ?_⟩
    · show s0.count_hot + (if node.node_type.hot then 1 else 0) +
        (s0.count_cold + (if node.node_type.cold then 1 else 0)) ≤ s0.capacity
      omega
    · show s0.count_hot + (if node.node_type.hot then 1 else 0) =
        (ringInsertAfter s0.ring s0.hand_hot s0.next_tok).countP
          (fun u => (if u = s0.next_tok then node else s0.slab u).node_type.hot)
      rw [cnt (fun nd => nd.node_type.hot)]
      have := h.hot_eq
      unfold countHotIn at this
      omega
    · show s0.count_cold + (if node.node_type.cold then 1 else 0) =
        (ringInsertAfter s0.ring s0.hand_hot s0.next_tok).countP
          (fun u => (if u = s0.next_tok then node else s0.slab u).node_type.cold)
      rw [cnt (fun nd => nd.node_type.cold)]
      have := h.cold_eq
      unfold countColdIn at this
      omega
    · show s0.count_test =
        (ringInsertAfter s0.ring s0.hand_hot s0.next_tok).countP
          (fun u => (if u = s0.next_tok then node else s0.slab u).node_type.test)
      rw [cnt (fun nd => nd.node_type.test)]
      rw [if_neg (by simp [hts])]
      have := h.test_eq
      unfold countTestIn at this
      omega
    · show (ringInsertAfter s0.ring s0.hand_hot s0.next_tok).Nodup
      exact nodup_ringInsertAfter _ h.ring_nodup hfresh
    · intro u hu
      show u < s0.next_tok + 1
      rcases (mem_ringInsertAfter _ _ _).1 hu with hu | hu
      · exact Nat.lt_succ_of_lt (h.fresh u hu)
      · rw [hu]
        exact Nat.lt_succ_self _
    · intro u hu
      rcases (mem_ringInsertAfter _ _ _).1 hu with hu | hu
      · have hne : u ≠ s0.next_tok := fun hc => hfresh (hc ▸ hu)
        have := h.state_ok u hu
        simpa [hne] using this
      · subst hu
        simpa using hex
    · intro u hu
      rcases (mem_ringInsertAfter _ _ _).1 hu with hu | hu
      · have hne : u ≠ s0.next_tok := fun hc => hfresh (hc ▸ hu)
        have := h.value_ok u hu
        simpa [hne] using this
      · subst hu
        simpa using hval.trans hhc.symm
    · intro u hu
      have hu1 : u ∉ s0.ring := fun hc =>
        hu ((mem_ringInsertAfter _ _ _).2 (Or.inl hc))
      have hu2 : u ≠ s0.next_tok := fun hc =>
        hu ((mem_ringInsertAfter _ _ _).2 (Or.inr hc))
      have := h.off_ring u hu1
      simpa [hu2] using this
    · show ((mapInsert s0.map key s0.next_tok).map Prod.fst).Nodup
      rw [hmi]
      refine List.nodup_cons.2 ⟨?_, h.keys_nodup⟩
      intro hc
      obtain ⟨p, hp, hpk⟩ := List.mem_map.1 hc
      exact hkeyabs p hp hpk
    · intro p hp
      rw [hmi] at hp
      rcases List.mem_cons.1 hp with hp | hp
      · subst hp
        refine ⟨(mem_ringInsertAfter _ _ _).2 (Or.inr rfl), ?_⟩
        simpa using hkey
      · obtain ⟨hm, hk⟩ := h.map_ring p hp
        have hne : p.2 ≠ s0.next_tok := fun hc => hfresh (hc ▸ hm)
        refine ⟨(mem_ringInsertAfter _ _ _).2 (Or.inl hm), ?_⟩
        simpa [hne] using hk
    · intro u hu
      rcases (mem_ringInsertAfter _ _ _).1 hu with hu | hu
      · obtain ⟨k, hk⟩ := h.ring_map u hu
        refine ⟨k, ?_⟩
        rw [hmi]
        exact List.mem_cons_of_mem _ hk
      · subst hu
        refine ⟨key, ?_⟩
        rw [hmi]
        exact List.mem_cons_self _ _
    · show (mapInsert s0.map key s0.next_tok).length =
        (ringInsertAfter s0.ring s0.hand_hot s0.next_tok).length
      rw [hmi, length_ringInsertAfter]
      have := h.len_eq
      simp
      omega
  constructor
  · unfold meta_add_pure
    by_cases hif : s0.hand_cold = s0.hand_hot
    · simp only [setSlab, if_pos hif]
      exact invcore_congr hcore rfl rfl rfl rfl rfl rfl rfl rfl rfl rfl
    · simp only [setSlab, if_neg hif]
      exact invcore_congr hcore rfl rfl rfl rfl rfl rfl rfl rfl rfl rfl
  refine ⟨?_, ?_, ?_⟩
  · show mapGet (meta_add_pure s0 key node).map key = some s0.next_tok
    unfold meta_add_pure
    by_cases hif : s0.hand_cold = s0.hand_hot
    · simp only [setSlab, if_pos hif]
      exact mapGet_mapInsert_self _ _ _
    · simp only [setSlab, if_neg hif]
      exact mapGet_mapInsert_self _ _ _
  · show (meta_add_pure s0 key node).slab s0.next_tok = node
    unfold meta_add_pure
    by_cases hif : s0.hand_cold = s0.hand_hot
    · simp [setSlab, if_pos hif]
    · simp [setSlab, if_neg hif]
  · intro u hu
    have : u ∈ ringInsertAfter s0.ring s0.hand_hot s0.next_tok := by
      revert hu
      unfold meta_add_pure
      by_cases hif : s0.hand_cold = s0.hand_hot
      · simp only [setSlab, if_pos hif]
        exact fun hu => hu
      · simp only [setSlab, if_neg hif]
        exact fun hu => hu
    exact (mem_ringInsertAfter _ _ _).1 this

end Steps

/-! ### The hand routines preserve the invariant (fuel induction) -/

section Bundle

variable {K V : Type} [DecidableEq K]

theorem intersects_hot_eq (n : NodeType) : n.intersects NODETYPE_HOT = n.hot := by
  simp [NodeType.intersects, NODETYPE_HOT]

theorem intersects_cold_eq (n : NodeType) : n.intersects NODETYPE_COLD = n.cold := by
  simp [NodeType.intersects, NODETYPE_COLD]

theorem intersects_test_eq (n : NodeType) : n.intersects NODETYPE_TEST = n.test := by
  simp [NodeType.intersects, NODETYPE_TEST]

theorem intersects_ref_eq (n : NodeType) :
    n.intersects NODETYPE_REFERENCE = n.reference := by
  simp [NodeType.intersects, NODETYPE_REFERENCE]

theorem stepOk_refl {s : ClockProCache K V} : StepOk s s :=
  ⟨rfl, rfl, rfl, fun _ hu => hu, fun _ hk => hk, le_max_left _ _, fun h => h⟩

theorem stepOk_trans {s s1 s2 : ClockProCache K V}
    (a : StepOk s s1) (b : StepOk s1 s2) : StepOk s s2 := by
  obtain ⟨a1, a2, a3, a4, a5, a6, a7⟩ := a
  obtain ⟨b1, b2, b3, b4, b5, b6, b7⟩ := b
  refine ⟨b1.trans a1, b2.trans a2, b3.trans a3, fun u hu => a4 u (b4 u hu),
    fun k hk => b5 k (a5 k hk), ?_, fun h => b7 (a7 h)⟩
  rw [a2] at b6
  exact le_trans b6 (max_le a6 (le_max_right _ _))

theorem stepOk_hands {s : ClockProCache K V} (a b c : Token) :
    StepOk s { s with hand_hot := a, hand_cold := b, hand_test := c } :=
  ⟨rfl, rfl, rfl, fun _ hu => hu, fun _ hk => hk, le_max_left _ _,
   fun h => invcore_congr h rfl rfl rfl rfl rfl rfl rfl rfl rfl rfl⟩

theorem stepOk_promote_cold {s : ClockProCache K V}
    (hcold : (s.slab s.hand_cold).node_type.cold = true) :
    StepOk s (promote_cold s) :=
  ⟨rfl, rfl, rfl, fun _ hu => hu, fun _ hk => hk, le_max_left _ _,
   fun h => (invcore_promote h hcold).1⟩

theorem stepOk_hand_hot_step (s0 : ClockProCache K V) :
    StepOk s0 (hand_hot_step s0) ∧ (hand_hot_step s0).count_test = s0.count_test := by
  unfold hand_hot_step
  by_cases hh : (s0.slab s0.hand_hot).node_type.intersects NODETYPE_HOT = true
  · rw [if_pos hh]
    rw [intersects_hot_eq] at hh
    by_cases hr : (s0.slab s0.hand_hot).node_type.intersects NODETYPE_REFERENCE = true
    · rw [if_pos hr]
      exact ⟨⟨rfl, rfl, rfl, fun _ hu => hu, fun _ hk => hk, le_max_left _ _,
        fun h => invcore_hot_refclear h⟩, rfl⟩
    · rw [if_neg hr]
      exact ⟨⟨rfl, rfl, rfl, fun _ hu => hu, fun _ hk => hk, le_max_left _ _,
        fun h => (invcore_hot_demote h hh).1⟩, rfl⟩
  · rw [if_neg hh]
    exact ⟨stepOk_refl, rfl⟩

theorem stepOk_hand_test_step (s0 : ClockProCache K V) :
    StepOk s0 (hand_test_step s0) ∧
    (hand_test_step s0).count_test ≤ s0.count_test := by
  unfold hand_test_step
  by_cases ht : (s0.slab s0.hand_test).node_type.intersects NODETYPE_TEST = true
  · rw [if_pos ht]
    rw [intersects_test_eq] at ht
    refine ⟨⟨rfl, rfl, rfl, ?_, ?_, ?_, ?_⟩, ?_⟩
    · intro u hu
      have hu' : u ∈ ringRemove s0.ring s0.hand_test := hu
      exact ((mem_ringRemove _ _).1 hu').1
    · intro k hk
      show mapGet (mapRemove s0.map (s0.slab s0.hand_test).key) k = none
      exact mapGet_mapRemove_of_none hk
    · show s0.count_test - 1 ≤ max s0.count_test s0.test_capacity
      exact le_trans (Nat.sub_le _ _) (le_max_left _ _)
    · intro h
      have hdel := (invcore_meta_del_test h ht).1
      by_cases hcc : 1 < s0.cold_capacity
      · have h1 : InvCore { { meta_del s0 s0.hand_test with
            count_test := s0.count_test - 1 } with
            cold_capacity := s0.cold_capacity - 1 } := by
          refine invcore_set_cc hdel (by omega) ?_
          show s0.cold_capacity - 1 ≤ s0.capacity
          exact le_trans (Nat.sub_le _ _) h.cc_hi
        refine invcore_congr h1 rfl rfl ?_ rfl rfl rfl rfl rfl rfl rfl
        show (if (meta_del s0 s0.hand_test).cold_capacity > 1
              then (meta_del s0 s0.hand_test).cold_capacity - 1
              else (meta_del s0 s0.hand_test).cold_capacity) = s0.cold_capacity - 1
        rw [if_pos (show (meta_del s0 s0.hand_test).cold_capacity > 1 from hcc)]
        rfl
      · refine invcore_congr hdel rfl rfl ?_ rfl rfl rfl rfl rfl rfl rfl
        show (if (meta_del s0 s0.hand_test).cold_capacity > 1
              then (meta_del s0 s0.hand_test).cold_capacity - 1
              else (meta_del s0 s0.hand_test).cold_capacity) = s0.cold_capacity
        rw [if_neg (show ¬ (meta_del s0 s0.hand_test).cold_capacity > 1 from hcc)]
        rfl
    · show s0.count_test - 1 ≤ s0.count_test
      exact Nat.sub_le _ _
  · rw [if_neg ht]
    exact ⟨stepOk_refl, le_refl _⟩

/-- Fuel induction over the six mutually recursive hand routines: every
successful run satisfies `StepOk`; in addition the test-trim loop leaves
`count_test ≤ test_capacity` and the eviction loop leaves
`count_hot + count_cold < capacity`. -/
theorem hands_bundle (fuel : Nat) :
    (∀ s s' : ClockProCache K V, run_hand_cold fuel s = some s' → StepOk s s') ∧
    (∀ s s' : ClockProCache K V, trim_test fuel s = some s' →
      StepOk s s' ∧ s'.count_test ≤ s.test_capacity) ∧
    (∀ s s' : ClockProCache K V, rebalance_hot fuel s = some s' → StepOk s s') ∧
    (∀ s s' : ClockProCache K V, run_hand_hot fuel s = some s' → StepOk s s') ∧
    (∀ s s' : ClockProCache K V, run_hand_test fuel s = some s' → StepOk s s') ∧
    (∀ s s' : ClockProCache K V, evict fuel s = some s' →
      StepOk s s' ∧ s'.count_hot + s'.count_cold < s'.capacity) := by
  induction fuel with
  | zero =>
    refine ⟨fun s s' h => ?_, fun s s' h => ?_, fun s s' h => ?_,
      fun s s' h => ?_, fun s s' h => ?_, fun s s' h => ?_⟩
    · rw [run_hand_cold] at h; cases h
    · rw [trim_test] at h; cases h
    · rw [rebalance_hot] at h; cases h
    · rw [run_hand_hot] at h; cases h
    · rw [run_hand_test] at h; cases h
    · rw [evict] at h; cases h
  | succ f ih =>
    obtain ⟨ihc, iht, ihr, ihh, ihtst, ihe⟩ := ih
    refine ⟨fun s s' h => ?_, fun s s' h => ?_, fun s s' h => ?_,
      fun s s' h => ?_, fun s s' h => ?_, fun s s' h => ?_⟩
    · -- run_hand_cold
      rw [run_hand_cold] at h
      by_cases hcold : (s.slab s.hand_cold).node_type.intersects NODETYPE_COLD = true
      · rw [if_pos hcold] at h
        rw [intersects_cold_eq] at hcold
        by_cases href : (s.slab s.hand_cold).node_type.intersects NODETYPE_REFERENCE = true
        · rw [if_pos href] at h
          exact stepOk_trans (stepOk_trans (stepOk_promote_cold hcold)
            (stepOk_hands _ _ _)) (ihr _ _ h)
        · rw [if_neg href] at h
          obtain ⟨s2, htr, h2⟩ := Option.bind_eq_some.1 h
          obtain ⟨⟨d1, d2, d3, d4, d5, d6, d7⟩, dct⟩ := iht _ _ htr
          obtain ⟨c1, c2, c3, c4, c5, c6, c7⟩ :=
            stepOk_trans (stepOk_hands (s := s2) _ _ _) (ihr _ _ h2)
          have e1 : s2.count_test ≤ s.test_capacity := dct
          have e2 : s2.test_capacity = s.test_capacity := d2
          rw [e2] at c6
          refine ⟨c1.trans d1, c2.trans d2, c3.trans d3,
            fun u hu => d4 u (c4 u hu), fun k hk => c5 k (d5 k hk), ?_, ?_⟩
          · exact le_trans c6 (le_trans (max_le e1 (le_refl _)) (le_max_right _ _))
          · intro hinv
            exact c7 (d7 ((invcore_demote_cold hinv hcold).1))
      · rw [if_neg hcold] at h
        exact stepOk_trans (stepOk_hands _ _ _) (ihr _ _ h)
    · -- trim_test
      rw [trim_test] at h
      by_cases hg : s.count_test > s.test_capacity
      · rw [if_pos hg] at h
        obtain ⟨s1, hrt, h2⟩ := Option.bind_eq_some.1 h
        have a := ihtst _ _ hrt
        obtain ⟨b1, b2⟩ := iht _ _ h2
        refine ⟨stepOk_trans a b1, ?_⟩
        have e2 : s1.test_capacity = s.test_capacity := a.2.1
        rw [e2] at b2
        exact b2
      · rw [if_neg hg] at h
        cases h
        exact ⟨stepOk_refl, by omega⟩
    · -- rebalance_hot
      rw [rebalance_hot] at h
      by_cases hg : s.count_hot > s.capacity - s.cold_capacity
      · rw [if_pos hg] at h
        obtain ⟨s1, hrh, h2⟩ := Option.bind_eq_some.1 h
        exact stepOk_trans (ihh _ _ hrh) (ihr _ _ h2)
      · rw [if_neg hg] at h
        cases h
        exact stepOk_refl
    · -- run_hand_hot
      rw [run_hand_hot] at h
      obtain ⟨s0, h0, h1⟩ := Option.bind_eq_some.1 h
      injection h1 with h1
      subst h1
      have hov : StepOk s s0 := by
        by_cases hc : s.hand_hot = s.hand_test
        · rw [if_pos hc] at h0
          exact ihtst _ _ h0
        · rw [if_neg hc] at h0
          cases h0
          exact stepOk_refl
      exact stepOk_trans hov
        (stepOk_trans (stepOk_hand_hot_step s0).1 (stepOk_hands _ _ _))
    · -- run_hand_test
      rw [run_hand_test] at h
      obtain ⟨s0, h0, h1⟩ := Option.bind_eq_some.1 h
      injection h1 with h1
      subst h1
      have hov : StepOk s s0 := by
        by_cases hc : s.hand_test = s.hand_cold
        · rw [if_pos hc] at h0
          exact ihc _ _ h0
        · rw [if_neg hc] at h0
          cases h0
          exact stepOk_refl
      exact stepOk_trans hov
        (stepOk_trans (stepOk_hand_test_step s0).1 (stepOk_hands _ _ _))
    · -- evict
      rw [evict] at h
      by_cases hg : s.count_hot + s.count_cold ≥ s.capacity
      · rw [if_pos hg] at h
        obtain ⟨s1, hrc, h2⟩ := Option.bind_eq_some.1 h
        obtain ⟨b1, b2⟩ := ihe _ _ h2
        exact ⟨stepOk_trans (ihc _ _ hrc) b1, b2⟩
      · rw [if_neg hg] at h
        cases h
        exact ⟨stepOk_refl, by omega⟩

/-! ### Path equations for the public operations -/

theorem meta_add_pure_mapGet (s0 : ClockProCache K V) (key : K) (node : Node K V) :
    mapGet (meta_add_pure s0 key node).map key = some s0.next_tok := by
  unfold meta_add_pure
  by_cases hif : s0.hand_cold = s0.hand_hot
  · rw [if_pos hif]
    exact mapGet_mapInsert_self _ _ _
  · rw [if_neg hif]
    exact mapGet_mapInsert_self _ _ _

theorem meta_add_pure_slab_self (s0 : ClockProCache K V) (key : K) (node : Node K V) :
    (meta_add_pure s0 key node).slab s0.next_tok = node := by
  unfold meta_add_pure
  by_cases hif : s0.hand_cold = s0.hand_hot
  · rw [if_pos hif]
    simp [setSlab]
  · rw [if_neg hif]
    simp [setSlab]

theorem meta_add_pure_ring_mem (s0 : ClockProCache K V) (key : K) (node : Node K V) :
    ∀ u, u ∈ (meta_add_pure s0 key node).ring → u ∈ s0.ring ∨ u = s0.next_tok := by
  intro u hu
  have : u ∈ ringInsertAfter s0.ring s0.hand_hot s0.next_tok := by
    revert hu
    unfold meta_add_pure
    by_cases hif : s0.hand_cold = s0.hand_hot
    · rw [if_pos hif]
      exact fun hu => hu
    · rw [if_neg hif]
      exact fun hu => hu
  exact (mem_ringInsertAfter _ _ _).1 this

theorem meta_add_pure_fields (s0 : ClockProCache K V) (key : K) (node : Node K V) :
    (meta_add_pure s0 key node).count_hot = s0.count_hot ∧
    (meta_add_pure s0 key node).count_cold = s0.count_cold ∧
    (meta_add_pure s0 key node).count_test = s0.count_test ∧
    (meta_add_pure s0 key node).capacity = s0.capacity ∧
    (meta_add_pure s0 key node).test_capacity = s0.test_capacity ∧
    (meta_add_pure s0 key node).next_tok = s0.next_tok + 1 ∧
    (meta_add_pure s0 key node).cold_capacity = s0.cold_capacity := by
  unfold meta_add_pure
  by_cases hif : s0.hand_cold = s0.hand_hot
  · rw [if_pos hif]
    exact ⟨rfl, rfl, rfl, rfl, rfl, rfl, rfl⟩
  · rw [if_neg hif]
    exact ⟨rfl, rfl, rfl, rfl, rfl, rfl, rfl⟩

theorem get_eq_none {s : ClockProCache K V} {k : K}
    (hget : mapGet s.map k = none) : get s k = (none, s) := by
  unfold get
  rw [hget]

theorem get_eq_miss {s : ClockProCache K V} {k : K} {t : Token}
    (hget : mapGet s.map k = some t) (hval : (s.slab t).value = none) :
    get s k = (none, s) := by
  unfold get
  rw [hget]
  simp only [hval]

theorem get_eq_hit {s : ClockProCache K V} {k : K} {t : Token} {v : V}
    (hget : mapGet s.map k = some t) (hval : (s.slab t).value = some v) :
    get s k = (some v, setSlab s t
      { key := (s.slab t).key, value := (s.slab t).value,
        node_type := (s.slab t).node_type.or NODETYPE_REFERENCE }) := by
  unfold get
  rw [hget]
  simp only [hval]

theorem get_mut_eq_get (s : ClockProCache K V) (k : K) : get_mut s k = get s k := rfl

theorem contains_key_eq_none {s : ClockProCache K V} {k : K}
    (hget : mapGet s.map k = none) : contains_key s k = false := by
  unfold contains_key
  rw [hget]

theorem contains_key_eq_some {s : ClockProCache K V} {k : K} {t : Token}
    (hget : mapGet s.map k = some t) :
    contains_key s k = (s.slab t).value.isSome := by
  unfold contains_key
  rw [hget]

theorem insert_eq_fresh {s : ClockProCache K V} {k : K} (fuel : Nat) (v : V)
    (hget : mapGet s.map k = none) :
    insert fuel s k v = (meta_add fuel s k
        { key := k, value := some v, node_type := NODETYPE_COLD }).bind fun s1 =>
      some (true, { s1 with count_cold := s1.count_cold + 1 }) := by
  unfold insert
  rw [hget]

theorem insert_eq_resident {s : ClockProCache K V} {k : K} {t : Token} (fuel : Nat)
    (v : V) (hget : mapGet s.map k = some t)
    (hval : (s.slab t).value.isSome = true) :
    insert fuel s k v = some (false, setSlab s t
      { key := (s.slab t).key, value := some v,
        node_type := (s.slab t).node_type.or NODETYPE_REFERENCE }) := by
  unfold insert
  rw [hget]
  simp only [hval, if_true]

theorem insert_eq_testhit {s : ClockProCache K V} {k : K} {t : Token} (fuel : Nat)
    (v : V) (hget : mapGet s.map k = some t)
    (hval : (s.slab t).value.isSome = false) :
    insert fuel s k v = insert_test_path fuel s k v t := by
  unfold insert
  rw [hget]
  simp only [hval, Bool.false_eq_true, if_false]

/-! ### The public operations preserve the invariant -/

/-- A freshly constructed cache satisfies the invariant. -/
theorem cacheInv_init {K V : Type} [DecidableEq K] [Inhabited K] {c t : Nat}
    {s : ClockProCache K V} (h : new_with_test_capacity K V c t = .ok s) :
    CacheInv s := by
  unfold new_with_test_capacity at h
  by_cases hc : c < 3
  · rw [if_pos hc] at h
    cases h
  · rw [if_neg hc] at h
    injection h with h
    subst h
    refine ⟨⟨?_, ?_, ?_, ?_, rfl, rfl, rfl, ?_, ?_, ?_, ?_, ?_, ?_, ?_, ?_, rfl⟩, ?_⟩
    · show 3 ≤ c
      omega
    · show 1 ≤ c
      omega
    · show c ≤ c
      exact le_refl c
    · show 0 + 0 ≤ c
      omega
    · show ([] : List Token).Nodup
      exact List.nodup_nil
    · intro u hu
      cases hu
    · intro u hu
      cases hu
    · intro u hu
      cases hu
    · intro u _
      exact ⟨rfl, rfl, rfl, rfl⟩
    · show (([] : List (K × Token)).map Prod.fst).Nodup
      exact List.nodup_nil
    · intro p hp
      cases hp
    · intro u hu
      cases hu
    · show (0 : Nat) ≤ t
      omega

/-- Auxiliary: the tail of the TEST-hit insert path (drop the TEST token,
admit a fresh HOT entry) preserves the invariant; instantiated with the
cold-capacity-adapted state. -/
theorem cacheInv_testhit_aux {s : ClockProCache K V} (hc : InvCore s)
    (hct : s.count_test ≤ s.test_capacity) {t : Token} {k : K}
    (hkey : (s.slab t).key = k) (htest : (s.slab t).node_type.test = true)
    {fuel : Nat} {v : V} {b : Bool} {s' : ClockProCache K V}
    (hrun : (meta_add fuel (meta_del { s with count_test := s.count_test - 1 } t) k
        { key := k, value := some v, node_type := NODETYPE_HOT }).bind (fun s1 =>
          some (false, { s1 with count_hot := s1.count_hot + 1 })) = some (b, s')) :
    CacheInv s' := by
  have hsc : InvCore (meta_del { s with count_test := s.count_test - 1 } t) :=
    (invcore_meta_del_test hc htest).1
  have habs : mapGet (meta_del { s with count_test := s.count_test - 1 } t).map k
      = none := by
    show mapGet (mapRemove s.map (s.slab t).key) k = none
    rw [hkey]
    exact mapGet_mapRemove_self s.map k
  obtain ⟨s1, hma, h1⟩ := Option.bind_eq_some.1 hrun
  unfold meta_add at hma
  obtain ⟨s0, hev, h0⟩ := Option.bind_eq_some.1 hma
  injection h0 with h0
  subst h0
  injection h1 with h1
  injection h1 with hb hs
  subst hs
  obtain ⟨⟨e1, e2, e3, e4, e5, e6, e7⟩, elt⟩ :=
    ((hands_bundle fuel).2.2.2.2.2 : ∀ s s' : ClockProCache K V, _) _ s0 hev
  have hinv0 : InvCore s0 := e7 hsc
  have habs0 : mapGet s0.map k = none := e5 k habs
  have hadd := invcore_meta_add hinv0 elt habs0
    { key := k, value := some v, node_type := NODETYPE_HOT } rfl
    (by simp [exclusiveState, NODETYPE_HOT]) (by simp [NODETYPE_HOT]) rfl
  obtain ⟨f1, f2, f3, f4, f5, f6, f7⟩ :=
    meta_add_pure_fields s0 k { key := k, value := some v, node_type := NODETYPE_HOT }
  constructor
  · refine invcore_congr hadd.1 rfl rfl rfl rfl rfl rfl rfl ?_ ?_ rfl
    · show (meta_add_pure s0 k _).count_hot + 1 = s0.count_hot + _
      rw [f1]
      rfl
    · rw [f2]
      rfl
  · show (meta_add_pure s0 k _).count_test ≤ (meta_add_pure s0 k _).test_capacity
    rw [f3, f5, e2]
    have hsct : (meta_del { s with count_test := s.count_test - 1 } t).count_test
        ≤ (meta_del { s with count_test := s.count_test - 1 } t).test_capacity := by
      show s.count_test - 1 ≤ s.test_capacity
      omega
    exact le_trans e6 (max_le hsct (le_refl _))

/-- `insert` preserves the invariant. -/
theorem cacheInv_insert {s : ClockProCache K V} (h : CacheInv s) {fuel : Nat}
    {k : K} {v : V} {b : Bool} {s' : ClockProCache K V}
    (hrun : insert fuel s k v = some (b, s')) : CacheInv s' := by
  obtain ⟨hc, hct⟩ := h
  rcases hget : mapGet s.map k with _ | t
  · -- fresh key
    rw [insert_eq_fresh fuel v hget] at hrun
    obtain ⟨s1, hma, h1⟩ := Option.bind_eq_some.1 hrun
    unfold meta_add at hma
    obtain ⟨s0, hev, h0⟩ := Option.bind_eq_some.1 hma
    injection h0 with h0
    subst h0
    injection h1 with h1
    injection h1 with hb hs
    subst hs
    obtain ⟨⟨e1, e2, e3, e4, e5, e6, e7⟩, elt⟩ :=
      ((hands_bundle fuel).2.2.2.2.2 : ∀ s s' : ClockProCache K V, _) s s0 hev
    have hinv0 : InvCore s0 := e7 hc
    have habs0 : mapGet s0.map k = none := e5 k hget
    have hadd := invcore_meta_add hinv0 elt habs0
      { key := k, value := some v, node_type := NODETYPE_COLD } rfl
      (by simp [exclusiveState, NODETYPE_COLD]) (by simp [NODETYPE_COLD]) rfl
    obtain ⟨f1, f2, f3, f4, f5, f6, f7⟩ :=
      meta_add_pure_fields s0 k { key := k, value := some v, node_type := NODETYPE_COLD }
    constructor
    · refine invcore_congr hadd.1 rfl rfl rfl rfl rfl rfl rfl ?_ ?_ rfl
      · rw [f1]
        rfl
      · show (meta_add_pure s0 k _).count_cold + 1 = s0.count_cold + _
        rw [f2]
        rfl
    · show (meta_add_pure s0 k _).count_test ≤
        (meta_add_pure s0 k _).test_capacity
      rw [f3, f5, e2]
      exact le_trans e6 (max_le hct (le_refl _))
  · rcases hval : (s.slab t).value.isSome with _ | _
    · -- TEST hit
      rw [insert_eq_testhit fuel v hget hval] at hrun
      unfold insert_test_path at hrun
      -- facts about the TEST entry
      have hmem : t ∈ s.ring := (hc.map_ring _ (mapGet_mem hget)).1
      have hkey : (s.slab t).key = k := (hc.map_ring _ (mapGet_mem hget)).2
      have htest : (s.slab t).node_type.test = true := by
        have hv := hc.value_ok t hmem
        rw [hval] at hv
        obtain ⟨hh, hcc2⟩ : (s.slab t).node_type.hot = false ∧
            (s.slab t).node_type.cold = false := by
          rcases Bool.or_eq_false_iff.1 hv.symm with ⟨a, b⟩
          exact ⟨a, b⟩
        rcases (hc.state_ok t hmem).2 with ⟨a1, _, _⟩ | ⟨_, a2, _⟩ | ⟨_, _, a3⟩
        · rw [a1] at hh; cases hh
        · rw [a2] at hcc2; cases hcc2
        · exact a3
      by_cases hcap : s.cold_capacity < s.capacity
      · rw [if_pos hcap] at hrun
        refine cacheInv_testhit_aux
          (s := { s with cold_capacity := s.cold_capacity + 1 })
          (invcore_set_cc hc (by omega) (by omega)) hct hkey htest hrun
      · rw [if_neg hcap] at hrun
        exact cacheInv_testhit_aux hc hct hkey htest hrun
    · -- resident hit: overwrite the value and set REFERENCE
      rw [insert_eq_resident fuel v hget hval] at hrun
      injection hrun with hrun
      injection hrun with hb hs
      subst hs
      refine ⟨?_, hct⟩
      have hmem : t ∈ s.ring := (hc.map_ring _ (mapGet_mem hget)).1
      exact invcore_ref_set hc hmem hval v

/-- `get` preserves the invariant. -/
theorem cacheInv_get {s : ClockProCache K V} (h : CacheInv s) (k : K) :
    CacheInv (get s k).2 := by
  obtain ⟨hc, hct⟩ := h
  rcases hget : mapGet s.map k with _ | t
  · rw [get_eq_none hget]
    exact ⟨hc, hct⟩
  · rcases hval : (s.slab t).value with _ | v
    · rw [get_eq_miss hget hval]
      exact ⟨hc, hct⟩
    · rw [get_eq_hit hget hval]
      refine ⟨?_, hct⟩
      have hmem : t ∈ s.ring := (hc.map_ring _ (mapGet_mem hget)).1
      have := invcore_ref_set hc hmem (by rw [hval]; rfl) v
      rw [hval]
      exact this

/-- `get_mut` preserves the invariant. -/
theorem cacheInv_get_mut {s : ClockProCache K V} (h : CacheInv s) (k : K) :
    CacheInv (get_mut s k).2 := by
  rw [get_mut_eq_get]
  exact cacheInv_get h k

/-- Every state reachable by the public operations satisfies the cache
invariant. -/
theorem reachable_cacheInv {K V : Type} [DecidableEq K] [Inhabited K]
    {s : ClockProCache K V} (h : Reachable s) : CacheInv s := by
  induction h with
  | init c t s h => exact cacheInv_init h
  | step_insert s fuel k v b s' hr hi ih => exact cacheInv_insert ih hi
  | step_get s k hr ih => exact cacheInv_get ih k
  | step_get_mut s k hr ih => exact cacheInv_get_mut ih k

end Bundle

/-! ### Reachability of the concrete scenario states -/

section Scenarios

theorem cache0_reachable : Reachable cache0 :=
  Reachable.init 3 3 cache0 rfl

theorem reachable_insStep (k v : Nat) {s : ClockProCache Nat Nat}
    (h : Reachable s) : Reachable (insStep k v s) := by
  unfold insStep
  rcases he : insert 20 s k v with _ | p
  · exact h
  · obtain ⟨b, s'⟩ := p
    exact Reachable.step_insert s 20 k v b s' h he

theorem reachable_getStep (k : Nat) {s : ClockProCache Nat Nat}
    (h : Reachable s) : Reachable (getStep k s) :=
  Reachable.step_get s k h

theorem c4end_reachable : Reachable c4end :=
  reachable_insStep 4 4 (reachable_insStep 3 3 (reachable_insStep 2 2
    (reachable_insStep 1 1 cache0_reachable)))

theorem c9end_reachable : Reachable c9end :=
  reachable_insStep 5 5 (reachable_insStep 4 4 (reachable_insStep 3 3
    (reachable_insStep 2 2 (reachable_getStep 1 (reachable_getStep 1
      (reachable_insStep 1 1 cache0_reachable))))))

end Scenarios

/-! ### The claims -/

section Claims

variable {K V : Type} [DecidableEq K]

/-- C3: in every state reachable from a freshly constructed cache by the
public operations, `count_hot + count_cold ≤ C`, `count_test ≤ T`, and
`count_hot + count_cold + count_test` equals both the number of ring
tokens and the number of keys in the key index. -/
theorem counters_bounded {K V : Type} [DecidableEq K] [Inhabited K]
    (s : ClockProCache K V) (h : Reachable s) :
    s.count_hot + s.count_cold ≤ s.capacity ∧
    s.count_test ≤ s.test_capacity ∧
    s.count_hot + s.count_cold + s.count_test = s.ring.length ∧
    s.ring.length = s.map.length := by
  obtain ⟨hc, hct⟩ := reachable_cacheInv h
  refine ⟨hc.resident_le, hct, ?_, hc.len_eq.symm⟩
  rw [hc.hot_eq, hc.cold_eq, hc.test_eq]
  exact countIn_sum hc.state_ok

/-- Witness for C3 at the concrete scenario state `c9end`. -/
theorem counters_bounded_witness :
    c9end.count_hot + c9end.count_cold ≤ c9end.capacity ∧
    c9end.count_test ≤ c9end.test_capacity ∧
    c9end.count_hot + c9end.count_cold + c9end.count_test = c9end.ring.length ∧
    c9end.ring.length = c9end.map.length :=
  counters_bounded c9end c9end_reachable

/-- C5: in every reachable state, every HOT or COLD ring entry has a
present value and every TEST ring entry has no value. -/
theorem resident_values {K V : Type} [DecidableEq K] [Inhabited K]
    (s : ClockProCache K V) (h : Reachable s) : ∀ t ∈ s.ring,
    ((s.slab t).node_type.hot = true ∨ (s.slab t).node_type.cold = true →
      (s.slab t).value.isSome = true) ∧
    ((s.slab t).node_type.test = true → (s.slab t).value = none) := by
  obtain ⟨hc, _⟩ := reachable_cacheInv h
  intro t htm
  constructor
  · intro hb
    rw [hc.value_ok t htm]
    rcases hb with hb | hb
    · simp [hb]
    · simp [hb]
  · intro hb
    obtain ⟨h1, h2⟩ := test_excl (hc.state_ok t htm) hb
    have hv := hc.value_ok t htm
    rw [h1, h2] at hv
    rcases hval : (s.slab t).value with _ | v
    · rfl
    · rw [hval] at hv
      simp at hv

/-- Witness for C5 at `c9end`: token 0 is resident COLD with a value,
token 1 is non-resident TEST without one. -/
theorem resident_values_witness :
    (c9end.slab 0).value.isSome = true ∧ (c9end.slab 1).value = none :=
  ⟨(resident_values c9end c9end_reachable 0 (by decide)).1 (Or.inr (by decide)),
   (resident_values c9end c9end_reachable 1 (by decide)).2 (by decide)⟩

/-- C7: `get` / `get_mut` return the stored value and set REFERENCE
exactly on a resident hit and return nothing otherwise (including TEST
entries), never advancing a hand; `contains_key` is true iff the key maps
to a token with a present value (and, returning only a `Bool` in this
model, touches no entry, in particular it sets no REFERENCE bit). -/
theorem lookup_spec (s : ClockProCache K V) (k : K) :
    (mapGet s.map k = none →
      get s k = (none, s) ∧ get_mut s k = (none, s) ∧ contains_key s k = false) ∧
    (∀ t v, mapGet s.map k = some t → (s.slab t).value = some v →
      get s k = (some v, setSlab s t
        { key := (s.slab t).key, value := (s.slab t).value,
          node_type := (s.slab t).node_type.or NODETYPE_REFERENCE }) ∧
      get_mut s k = get s k ∧
      ((get s k).2.slab t).node_type.reference = true ∧
      contains_key s k = true) ∧
    (∀ t, mapGet s.map k = some t → (s.slab t).value = none →
      get s k = (none, s) ∧ get_mut s k = (none, s) ∧ contains_key s k = false) ∧
    ((get s k).2.hand_hot = s.hand_hot ∧ (get s k).2.hand_cold = s.hand_cold ∧
     (get s k).2.hand_test = s.hand_test ∧ (get s k).2.ring = s.ring ∧
     (get_mut s k).2 = (get s k).2) ∧
    (contains_key s k = true ↔
      ∃ t, mapGet s.map k = some t ∧ (s.slab t).value.isSome = true) := by
  refine ⟨?_, ?_, ?_, ?_, ?_⟩
  · intro hget
    rw [get_eq_none hget, get_mut_eq_get, get_eq_none hget, contains_key_eq_none hget]
    exact ⟨rfl, rfl, rfl⟩
  · intro t v hget hval
    have hmg := get_mut_eq_get s k
    rw [get_eq_hit hget hval] at hmg ⊢
    refine ⟨rfl, hmg, ?_, ?_⟩
    · simp [setSlab, NodeType.or, NODETYPE_REFERENCE]
    · rw [contains_key_eq_some hget, hval]
      rfl
  · intro t hget hval
    rw [get_eq_miss hget hval, get_mut_eq_get, get_eq_miss hget hval,
      contains_key_eq_some hget, hval]
    exact ⟨rfl, rfl, rfl⟩
  · rw [get_mut_eq_get]
    rcases hget : mapGet s.map k with _ | t
    · rw [get_eq_none hget]
      exact ⟨rfl, rfl, rfl, rfl, rfl⟩
    · rcases hval : (s.slab t).value with _ | v
      · rw [get_eq_miss hget hval]
        exact ⟨rfl, rfl, rfl, rfl, rfl⟩
      · rw [get_eq_hit hget hval]
        exact ⟨rfl, rfl, rfl, rfl, rfl⟩
  · rcases hget : mapGet s.map k with _ | t
    · rw [contains_key_eq_none hget]
      constructor
      · intro hcon
        cases hcon
      · rintro ⟨t, ht, _⟩
        cases ht
    · rw [contains_key_eq_some hget]
      constructor
      · intro hcon
        exact ⟨t, rfl, hcon⟩
      · rintro ⟨t', ht', hv⟩
        injection ht' with ht'
        rw [ht']
        exact hv

/-- Witness for C7: a resident hit (key 1), a TEST miss (key 2) and an
absent key (99) in `c9end`. -/
theorem lookup_spec_witness :
    contains_key c9end 1 = true ∧ get c9end 2 = (none, c9end) ∧
    contains_key c9end 99 = false :=
  ⟨((lookup_spec c9end 1).2.1 0 1 (by decide) (by decide)).2.2.2,
   ((lookup_spec c9end 2).2.2.1 1 (by decide) (by decide)).1,
   ((lookup_spec c9end 99).1 (by decide)).2.2⟩

/-- C8: construction fails exactly for capacities below 3 (`C = 2` errs,
`C = 3` succeeds), `new C` equals `new_with_test_capacity C C`, and a
successful construction starts with an empty ring, `cold_target = C`,
zero counts, and all hands on the token-0 sentinel (no ring token exists
to dereference). -/
theorem construction_spec (K V : Type) [DecidableEq K] [Inhabited K] :
    (∀ c t : Nat, c < 3 →
      new_with_test_capacity K V c t =
        .error "Cache size cannot be less than 3 entries") ∧
    (∀ c t : Nat, 3 ≤ c →
      new_with_test_capacity K V c t = .ok
        { capacity := c, test_capacity := t, cold_capacity := c, map := [],
          ring := [],
          slab := fun _ => { key := default, value := none,
                             node_type := NODETYPE_EMPTY },
          next_tok := 0, hand_hot := 0, hand_cold := 0, hand_test := 0,
          count_hot := 0, count_cold := 0, count_test := 0 }) ∧
    (∀ c : Nat, new K V c = new_with_test_capacity K V c c) ∧
    (new K V 2 = .error "Cache size cannot be less than 3 entries") ∧
    (∃ s : ClockProCache K V, new K V 3 = .ok s ∧ s.ring = [] ∧
      s.cold_capacity = 3 ∧ s.count_hot = 0 ∧ s.count_cold = 0 ∧
      s.count_test = 0 ∧ s.hand_hot = 0 ∧ s.hand_cold = 0 ∧ s.hand_test = 0) := by
  refine ⟨?_, ?_, fun c => rfl, ?_, ?_⟩
  · intro c t hcap
    unfold new_with_test_capacity
    rw [if_pos hcap]
  · intro c t hcap
    unfold new_with_test_capacity
    rw [if_neg (by omega)]
  · show new_with_test_capacity K V 2 2 = _
    unfold new_with_test_capacity
    rw [if_pos (by omega)]
  · have hs : new K V 3 = .ok
        { capacity := 3, test_capacity := 3, cold_capacity := 3,
          map := [], ring := [],
          slab := fun _ => { key := default, value := none,
                             node_type := NODETYPE_EMPTY },
          next_tok := 0, hand_hot := 0, hand_cold := 0, hand_test := 0,
          count_hot := 0, count_cold := 0, count_test := 0 } := by
      show new_with_test_capacity K V 3 3 = _
      unfold new_with_test_capacity
      rw [if_neg (by omega)]
    exact ⟨_, hs, rfl, rfl, rfl, rfl, rfl, rfl, rfl, rfl⟩

/-- Witness for C8 at `C = 2` and `C = 3` over `Nat` keys. -/
theorem construction_spec_witness :
    new_with_test_capacity Nat Nat 2 7 =
      .error "Cache size cannot be less than 3 entries" ∧
    new Nat Nat 2 = .error "Cache size cannot be less than 3 entries" :=
  ⟨(construction_spec Nat Nat).1 2 7 (by omega),
   (construction_spec Nat Nat).2.2.2.1⟩

/-- C10: inserting an already-resident key evicts nothing and changes
nothing except that entry's stored value and REFERENCE bit: the hands,
the counters, `cold_target`, the ring, the key index, the allocation
state and every other slot are untouched. -/
theorem insert_resident_frame (fuel : Nat) (s : ClockProCache K V) (k : K)
    (v : V) (t : Token) (b : Bool) (s' : ClockProCache K V)
    (hget : mapGet s.map k = some t) (hres : (s.slab t).value.isSome = true)
    (hrun : insert fuel s k v = some (b, s')) :
    b = false ∧
    s' = setSlab s t
      { key := (s.slab t).key, value := some v,
        node_type := (s.slab t).node_type.or NODETYPE_REFERENCE } ∧
    (∀ u, u ≠ t → s'.slab u = s.slab u) ∧
    s'.hand_hot = s.hand_hot ∧ s'.hand_cold = s.hand_cold ∧
    s'.hand_test = s.hand_test ∧ s'.count_hot = s.count_hot ∧
    s'.count_cold = s.count_cold ∧ s'.count_test = s.count_test ∧
    s'.cold_capacity = s.cold_capacity ∧ s'.ring = s.ring ∧ s'.map = s.map ∧
    s'.next_tok = s.next_tok ∧
    (s'.slab t).value = some v ∧ (s'.slab t).node_type.reference = true := by
  rw [insert_eq_resident fuel v hget hres] at hrun
  injection hrun with hrun
  injection hrun with hb hs
  subst hs
  refine ⟨hb.symm, rfl, ?_, rfl, rfl, rfl, rfl, rfl, rfl, rfl, rfl, rfl, rfl,
    ?_, ?_⟩
  · intro u hu
    simp [setSlab, hu]
  · simp [setSlab]
  · simp [setSlab, NodeType.or, NODETYPE_REFERENCE]

/-- Witness for C10: overwriting the resident key 1 in `c9end`. -/
theorem insert_resident_frame_witness :
    (insStep 1 42 c9end).ring = c9end.ring ∧
    ((insStep 1 42 c9end).slab 0).value = some 42 := by
  have h := insert_resident_frame 20 c9end 1 42 0 false (insStep 1 42 c9end)
    (by decide) (by decide) (by rfl)
  exact ⟨h.2.2.2.2.2.2.2.2.2.2.1, h.2.2.2.2.2.2.2.2.2.2.2.2.2.1⟩

/-- C1: `insert` returns `true` exactly when the key was absent; an
absent key is admitted (after the eviction loop) under the fresh token
as a COLD entry with REFERENCE clear and `count_cold` incremented; a
resident key is overwritten in place with REFERENCE set and `false`
returned. -/
theorem insert_admission (fuel : Nat) (s : ClockProCache K V) (k : K)
    (v : V) (b : Bool) (s' : ClockProCache K V)
    (hrun : insert fuel s k v = some (b, s')) :
    (b = true ↔ mapGet s.map k = none) ∧
    (mapGet s.map k = none →
      mapGet s'.map k = some s.next_tok ∧
      s'.slab s.next_tok =
        { key := k, value := some v, node_type := NODETYPE_COLD } ∧
      (s'.slab s.next_tok).node_type.reference = false ∧
      ∃ s0 : ClockProCache K V, evict fuel s = some s0 ∧
        s'.count_cold = s0.count_cold + 1 ∧ s'.count_hot = s0.count_hot) ∧
    (∀ t, mapGet s.map k = some t → (s.slab t).value.isSome = true →
      b = false ∧ s' = setSlab s t
        { key := (s.slab t).key, value := some v,
          node_type := (s.slab t).node_type.or NODETYPE_REFERENCE }) := by
  rcases hget : mapGet s.map k with _ | t
  · rw [insert_eq_fresh fuel v hget] at hrun
    obtain ⟨s1, hma, h1⟩ := Option.bind_eq_some.1 hrun
    unfold meta_add at hma
    obtain ⟨s0, hev, h0⟩ := Option.bind_eq_some.1 hma
    injection h0 with h0
    subst h0
    injection h1 with h1
    injection h1 with hb hs
    subst hb
    subst hs
    obtain ⟨e1, e2, e3, e4, e5, e6, e7⟩ :=
      (((hands_bundle fuel).2.2.2.2.2 : ∀ a b : ClockProCache K V, _) s s0 hev).1
    obtain ⟨f1, f2, f3, f4, f5, f6, f7⟩ := meta_add_pure_fields s0 k
      { key := k, value := some v, node_type := NODETYPE_COLD }
    refine ⟨by simp, fun _ => ⟨?_, ?_, ?_, s0, hev, ?_, ?_⟩, fun t ht _ => ?_⟩
    · show mapGet (meta_add_pure s0 k
        { key := k, value := some v, node_type := NODETYPE_COLD }).map k = _
      rw [meta_add_pure_mapGet, e3]
    · show (meta_add_pure s0 k
        { key := k, value := some v, node_type := NODETYPE_COLD }).slab
          s.next_tok = _
      rw [← e3]
      exact meta_add_pure_slab_self s0 k _
    · show ((meta_add_pure s0 k
        { key := k, value := some v, node_type := NODETYPE_COLD }).slab
          s.next_tok).node_type.reference = false
      rw [← e3, meta_add_pure_slab_self]
      rfl
    · show (meta_add_pure s0 k
        { key := k, value := some v, node_type := NODETYPE_COLD }).count_cold + 1
        = s0.count_cold + 1
      rw [f2]
    · show (meta_add_pure s0 k
        { key := k, value := some v, node_type := NODETYPE_COLD }).count_hot
        = s0.count_hot
      exact f1
    · cases ht
  · rcases hval : (s.slab t).value.isSome with _ | _
    · rw [insert_eq_testhit fuel v hget hval] at hrun
      unfold insert_test_path at hrun
      obtain ⟨s1, hma, h1⟩ := Option.bind_eq_some.1 hrun
      injection h1 with h1
      injection h1 with hb hs
      subst hb
      refine ⟨by simp, fun h2 => ?_, fun t' ht' hv' => ?_⟩
      · cases h2
      · injection ht' with ht'
        subst ht'
        rw [hval] at hv'
        cases hv'
    · rw [insert_eq_resident fuel v hget hval] at hrun
      injection hrun with hrun
      injection hrun with hb hs
      subst hb
      refine ⟨by simp, fun h2 => ?_, fun t' ht' hv' => ?_⟩
      · cases h2
      · injection ht' with ht'
        subst ht'
        exact ⟨rfl, hs.symm⟩

/-- Witness for C1: inserting key 1 into the fresh cache admits it as a
COLD entry under token 0. -/
theorem insert_admission_witness :
    mapGet (insStep 1 1 cache0).map 1 = some cache0.next_tok ∧
    (insStep 1 1 cache0).slab cache0.next_tok =
      { key := 1, value := some 1, node_type := NODETYPE_COLD } := by
  have h := insert_admission 20 cache0 1 1 true (insStep 1 1 cache0) (by rfl)
  exact ⟨(h.2.1 (by decide)).1, (h.2.1 (by decide)).2.1⟩

/-- C2: a TEST hit on `insert` bumps `cold_target` when it is below `C`,
decrements `count_test`, deletes the old TEST token (it leaves the
ring), admits the key afresh as a HOT entry with the new value
(`count_hot` incremented after the eviction loop), and returns `false`;
the re-inserted key is resident, in HOT state, under the fresh token. -/
theorem insert_test_promotes {K V : Type} [DecidableEq K] [Inhabited K]
    (fuel : Nat) (s : ClockProCache K V) (k : K) (v : V) (t : Token)
    (b : Bool) (s' : ClockProCache K V) (hreach : Reachable s)
    (hget : mapGet s.map k = some t) (hnone : (s.slab t).value = none)
    (hrun : insert fuel s k v = some (b, s')) :
    b = false ∧
    insert fuel s k v = insert_test_path fuel s k v t ∧
    (s.cold_capacity < s.capacity →
      (if s.cold_capacity < s.capacity
       then { s with cold_capacity := s.cold_capacity + 1 }
       else s).cold_capacity = s.cold_capacity + 1) ∧
    (∃ s0 : ClockProCache K V,
      evict fuel (meta_del
        { (if s.cold_capacity < s.capacity
           then { s with cold_capacity := s.cold_capacity + 1 }
           else s) with
          count_test :=
            (if s.cold_capacity < s.capacity
             then { s with cold_capacity := s.cold_capacity + 1 }
             else s).count_test - 1 } t) = some s0 ∧
      s'.count_hot = s0.count_hot + 1 ∧ s'.count_cold = s0.count_cold) ∧
    mapGet s'.map k = some s.next_tok ∧
    s'.slab s.next_tok =
      { key := k, value := some v, node_type := NODETYPE_HOT } ∧
    contains_key s' k = true ∧
    t ∉ s'.ring := by
  obtain ⟨hc, hct⟩ := reachable_cacheInv hreach
  have hval : (s.slab t).value.isSome = false := by rw [hnone]; rfl
  have hpath := insert_eq_testhit fuel v hget hval
  rw [hpath] at hrun
  unfold insert_test_path at hrun
  have hmem : t ∈ s.ring := (hc.map_ring _ (mapGet_mem hget)).1
  have hfresh : t < s.next_tok := hc.fresh t hmem
  by_cases hcap : s.cold_capacity < s.capacity
  · rw [if_pos hcap] at hrun
    rw [if_pos hcap]
    obtain ⟨s1, hma, h1⟩ := Option.bind_eq_some.1 hrun
    unfold meta_add at hma
    obtain ⟨s0, hev, h0⟩ := Option.bind_eq_some.1 hma
    injection h0 with h0
    subst h0
    injection h1 with h1
    injection h1 with hb hs
    obtain ⟨e1, e2, e3, e4, e5, e6, e7⟩ :=
      (((hands_bundle fuel).2.2.2.2.2 : ∀ a b : ClockProCache K V, _) _ s0 hev).1
    have hnt : s0.next_tok = s.next_tok := e3
    obtain ⟨f1, f2, f3, f4, f5, f6, f7⟩ := meta_add_pure_fields s0 k
      { key := k, value := some v, node_type := NODETYPE_HOT }
    have hm5 : mapGet s'.map k = some s.next_tok := by
      rw [← hs]
      show mapGet (meta_add_pure s0 k
        { key := k, value := some v, node_type := NODETYPE_HOT }).map k = _
      rw [meta_add_pure_mapGet, hnt]
    have hm6 : s'.slab s.next_tok =
        { key := k, value := some v, node_type := NODETYPE_HOT } := by
      rw [← hs]
      show (meta_add_pure s0 k
        { key := k, value := some v, node_type := NODETYPE_HOT }).slab
          s.next_tok = _
      rw [← hnt]
      exact meta_add_pure_slab_self s0 k _
    have hm7 : contains_key s' k = true := by
      rw [contains_key_eq_some hm5, hm6]
      rfl
    have hm8 : t ∉ s'.ring := by
      rw [← hs]
      intro hmem2
      rcases meta_add_pure_ring_mem s0 k
        { key := k, value := some v, node_type := NODETYPE_HOT } t hmem2 with
        hin | heq
      · have h3 : t ∈ ringRemove s.ring t := e4 t hin
        simp [ringRemove] at h3
      · rw [heq, hnt] at hfresh
        exact absurd hfresh (lt_irrefl _)
    refine ⟨hb.symm, hpath, fun _ => rfl, ⟨s0, hev, ?_, ?_⟩, hm5, hm6, hm7, hm8⟩
    · rw [← hs]
      show (meta_add_pure s0 k
        { key := k, value := some v, node_type := NODETYPE_HOT }).count_hot + 1
        = s0.count_hot + 1
      rw [f1]
    · rw [← hs]
      show (meta_add_pure s0 k
        { key := k, value := some v, node_type := NODETYPE_HOT }).count_cold
        = s0.count_cold
      exact f2
  · rw [if_neg hcap] at hrun
    rw [if_neg hcap]
    obtain ⟨s1, hma, h1⟩ := Option.bind_eq_some.1 hrun
    unfold meta_add at hma
    obtain ⟨s0, hev, h0⟩ := Option.bind_eq_some.1 hma
    injection h0 with h0
    subst h0
    injection h1 with h1
    injection h1 with hb hs
    obtain ⟨e1, e2, e3, e4, e5, e6, e7⟩ :=
      (((hands_bundle fuel).2.2.2.2.2 : ∀ a b : ClockProCache K V, _) _ s0 hev).1
    have hnt : s0.next_tok = s.next_tok := e3
    obtain ⟨f1, f2, f3, f4, f5, f6, f7⟩ := meta_add_pure_fields s0 k
      { key := k, value := some v, node_type := NODETYPE_HOT }
    have hm5 : mapGet s'.map k = some s.next_tok := by
      rw [← hs]
      show mapGet (meta_add_pure s0 k
        { key := k, value := some v, node_type := NODETYPE_HOT }).map k = _
      rw [meta_add_pure_mapGet, hnt]
    have hm6 : s'.slab s.next_tok =
        { key := k, value := some v, node_type := NODETYPE_HOT } := by
      rw [← hs]
      show (meta_add_pure s0 k
        { key := k, value := some v, node_type := NODETYPE_HOT }).slab
          s.next_tok = _
      rw [← hnt]
      exact meta_add_pure_slab_self s0 k _
    have hm7 : contains_key s' k = true := by
      rw [contains_key_eq_some hm5, hm6]
      rfl
    have hm8 : t ∉ s'.ring := by
      rw [← hs]
      intro hmem2
      rcases meta_add_pure_ring_mem s0 k
        { key := k, value := some v, node_type := NODETYPE_HOT } t hmem2 with
        hin | heq
      · have h3 : t ∈ ringRemove s.ring t := e4 t hin
        simp [ringRemove] at h3
      · rw [heq, hnt] at hfresh
        exact absurd hfresh (lt_irrefl _)
    refine ⟨hb.symm, hpath, fun hlt => absurd hlt hcap, ⟨s0, hev, ?_, ?_⟩,
      hm5, hm6, hm7, hm8⟩
    · rw [← hs]
      show (meta_add_pure s0 k
        { key := k, value := some v, node_type := NODETYPE_HOT }).count_hot + 1
        = s0.count_hot + 1
      rw [f1]
    · rw [← hs]
      show (meta_add_pure s0 k
        { key := k, value := some v, node_type := NODETYPE_HOT }).count_cold
        = s0.count_cold
      exact f2

/-- Witness for C2: re-inserting key 2 while its TEST slot (token 1)
still exists in `c4end` makes it resident again and drops token 1. -/
theorem insert_test_promotes_witness :
    contains_key (insStep 2 99 c4end) 2 = true ∧
    (1 : Token) ∉ (insStep 2 99 c4end).ring := by
  have h := insert_test_promotes 20 c4end 2 99 1 false (insStep 2 99 c4end)
    c4end_reachable (by decide) (by decide) (by rfl)
  exact ⟨h.2.2.2.2.2.2.1, h.2.2.2.2.2.2.2⟩

/-- C4: one step of `run_hand_cold`: a COLD slot under `hand_cold` with
REFERENCE set is promoted to HOT (`count_cold` down, `count_hot` up); a
COLD slot without REFERENCE is demoted to a valueless TEST slot and the
test-trim loop brings `count_test` back under `T`; in every case the
hand then advances to the next ring token and the hot-rebalance loop
(`while count_hot > C − cold_target`) runs. -/
theorem run_hand_cold_spec (fuel : Nat) (s s' : ClockProCache K V)
    (hrun : run_hand_cold (fuel + 1) s = some s') :
    ((s.slab s.hand_cold).node_type.cold = true →
      (s.slab s.hand_cold).node_type.reference = true →
      (promote_cold s).count_cold = s.count_cold - 1 ∧
      (promote_cold s).count_hot = s.count_hot + 1 ∧
      ((promote_cold s).slab s.hand_cold).node_type = NODETYPE_HOT ∧
      rebalance_hot fuel { promote_cold s with
        hand_cold := ringNext (promote_cold s).ring (promote_cold s).hand_cold } =
        some s') ∧
    ((s.slab s.hand_cold).node_type.cold = true →
      (s.slab s.hand_cold).node_type.reference = false →
      (demote_cold s).count_cold = s.count_cold - 1 ∧
      (demote_cold s).count_test = s.count_test + 1 ∧
      ((demote_cold s).slab s.hand_cold).value = none ∧
      ((demote_cold s).slab s.hand_cold).node_type.test = true ∧
      ∃ s2 : ClockProCache K V, trim_test fuel (demote_cold s) = some s2 ∧
        s2.count_test ≤ s.test_capacity ∧
        rebalance_hot fuel
          { s2 with hand_cold := ringNext s2.ring s2.hand_cold } = some s') ∧
    ((s.slab s.hand_cold).node_type.cold = false →
      rebalance_hot fuel
        { s with hand_cold := ringNext s.ring s.hand_cold } = some s') := by
  rw [run_hand_cold] at hrun
  refine ⟨fun hcold href => ?_, fun hcold href => ?_, fun hcold => ?_⟩
  · rw [if_pos (by rw [intersects_cold_eq]; exact hcold),
      if_pos (by rw [intersects_ref_eq]; exact href)] at hrun
    refine ⟨rfl, rfl, ?_, hrun⟩
    simp [promote_cold, setSlab]
  · rw [if_pos (by rw [intersects_cold_eq]; exact hcold),
      if_neg (by simp [intersects_ref_eq, href])] at hrun
    obtain ⟨s2, htr, h2⟩ := Option.bind_eq_some.1 hrun
    refine ⟨rfl, rfl, ?_, ?_, s2, htr, ((hands_bundle fuel).2.1 _ _ htr).2, h2⟩
    · simp [demote_cold, setSlab]
    · simp [demote_cold, setSlab, NodeType.andNot, NodeType.or, NODETYPE_MASK,
        NODETYPE_TEST]
  · rw [if_neg (by simp [intersects_cold_eq, hcold])] at hrun
    exact hrun

/-- Witness for C4: the demotion branch fires on `c4end`, whose
`hand_cold` slot is COLD without REFERENCE. -/
theorem run_hand_cold_spec_witness :
    ∃ s2 : ClockProCache Nat Nat, trim_test 1 (demote_cold c4end) = some s2 ∧
      s2.count_test ≤ c4end.test_capacity ∧
      rebalance_hot 1
        { s2 with hand_cold := ringNext s2.ring s2.hand_cold } = some c4res := by
  have h := run_hand_cold_spec 1 c4end c4res (by rfl)
  exact (h.2.1 (by decide) (by decide)).2.2.2.2

/-- C6: `cold_target` stays within `[1, C]` in every reachable state; a
TEST hit on `insert` bumps it by exactly one unless it already equals
`C`, and a `hand_test` reclaim of a TEST slot drops it by exactly one
unless it already equals 1 — the clamp holds at both ends. -/
theorem cold_target_clamped {K V : Type} [DecidableEq K] [Inhabited K]
    (s : ClockProCache K V) (h : Reachable s) :
    (1 ≤ s.cold_capacity ∧ s.cold_capacity ≤ s.capacity) ∧
    (∀ (fuel : Nat) (k : K) (v : V) (t : Token),
      mapGet s.map k = some t → (s.slab t).value = none →
      (if s.cold_capacity < s.capacity
       then { s with cold_capacity := s.cold_capacity + 1 }
       else s).cold_capacity =
        (if s.cold_capacity = s.capacity then s.cold_capacity
         else s.cold_capacity + 1) ∧
      insert fuel s k v = insert_test_path fuel s k v t) ∧
    (∀ (s2 s2' : ClockProCache K V) (fuel : Nat),
      s2.hand_test ≠ s2.hand_cold →
      (s2.slab s2.hand_test).node_type.test = true →
      1 ≤ s2.cold_capacity →
      run_hand_test (fuel + 1) s2 = some s2' →
      s2'.cold_capacity =
        if s2.cold_capacity = 1 then 1 else s2.cold_capacity - 1) := by
  obtain ⟨hc, _⟩ := reachable_cacheInv h
  have hhi := hc.cc_hi
  refine ⟨⟨hc.cc_lo, hhi⟩, fun fuel k v t hget hnone => ⟨?_, ?_⟩,
    fun s2 s2' fuel hne htest hone hrun => ?_⟩
  · by_cases hlt : s.cold_capacity < s.capacity
    · rw [if_pos hlt, if_neg (by omega)]
    · rw [if_neg hlt, if_pos (by omega)]
  · exact insert_eq_testhit fuel v hget (by rw [hnone]; rfl)
  · rw [run_hand_test] at hrun
    rw [if_neg hne] at hrun
    obtain ⟨s0, h0, h1⟩ := Option.bind_eq_some.1 hrun
    injection h0 with h0
    subst h0
    injection h1 with h1
    subst h1
    show (hand_test_step s2).cold_capacity = _
    unfold hand_test_step
    rw [if_pos (by rw [intersects_test_eq]; exact htest)]
    show (if (meta_del s2 s2.hand_test).cold_capacity > 1
          then (meta_del s2 s2.hand_test).cold_capacity - 1
          else (meta_del s2 s2.hand_test).cold_capacity) = _
    have hmd : (meta_del s2 s2.hand_test).cold_capacity = s2.cold_capacity := rfl
    rw [hmd]
    by_cases h1c : s2.cold_capacity > 1
    · rw [if_pos h1c, if_neg (by omega)]
    · rw [if_neg h1c, if_pos (by omega)]
      omega

/-- Witness for C6: the bounds at the reachable state `c4end`, and a
shrink step at `tstate` (cold_target 2 becomes 1). -/
theorem cold_target_clamped_witness :
    1 ≤ c4end.cold_capacity ∧ c4end.cold_capacity ≤ c4end.capacity ∧
    tstate2.cold_capacity =
      (if tstate.cold_capacity = 1 then 1 else tstate.cold_capacity - 1) := by
  have h := cold_target_clamped c4end c4end_reachable
  exact ⟨h.1.1, h.1.2,
    h.2.2 tstate tstate2 0 (by decide) (by decide) (by decide) (by rfl)⟩

/-- C9: refuted as stated.  After `insert 1; get 1; get 1; insert 2;
insert 3; insert 4; insert 5` on a `C = 3`, `T = 3` cache, key 1 does
survive (`contains_key` holds) — but it is never promoted: its entry is
still COLD, not HOT, with the REFERENCE bit still set, and `count_hot`
is 0.  `meta_add` parks `hand_cold` on each newly inserted token, so the
cold sweep never examines key 1's slot. -/
theorem scan_survival_counterexample :
    contains_key c9end 1 = true ∧
    mapGet c9end.map 1 = some 0 ∧
    (c9end.slab 0).node_type.hot = false ∧
    (c9end.slab 0).node_type.reference = true ∧
    c9end.count_hot = 0 := by
  decide

/-- C9 (amended): after the same sequence the referenced key 1 survives
the scan pressure — `contains_key` is true at the end — but as a COLD
entry with its REFERENCE bit still set, with the old value, and the hot
partition still empty. -/
theorem scan_survival_amended :
    contains_key c9end 1 = true ∧
    (c9end.slab 0).value = some 1 ∧
    (c9end.slab 0).node_type.cold = true ∧
    (c9end.slab 0).node_type.reference = true ∧
    c9end.count_hot = 0 ∧ c9end.count_cold = 3 ∧ c9end.count_test = 2 := by
  decide

end Claims

end Ops

end ClockProCache
